import Mathlib

/-!
Shallow embedding of the mpower-analysis gait-feature pipeline
(`src/utils/new_walking_feature.py` and `src/utils/query_utils.py`).

Numbers are modelled as `ℚ` (the Python code works on float64; all the
properties checked here are about the exact arithmetic the code performs,
none depends on rounding).  External library calls that the repository does
not implement are modelled from the spec:
  * `butter_lowpass_filter` (scipy `butter`/`lfilter`) appears as an opaque
    function parameter `filt : List ℚ → List ℚ`; the spec (§4.1) only
    promises a same-length filtered series.
  * `pdkit.GaitProcessor.heel_strikes` appears as a parameter
    `det : List ℚ → Option ℕ` returning the number of detected strikes, or
    `none` when the detector raises (the code catches every exception and
    substitutes 0).
  * `sklearn.metrics.auc` is modelled from the spec (glossary: trapezoidal
    integral) as `trapzQ`.
A value of `Option ℚ` with `none` stands for a non-finite float (NaN or
infinity), which arises from `np.mean` of an empty array and from division
by a zero duration.
-/

namespace MPower

/-- Sum of a list of rationals. -/
def qsum (l : List ℚ) : ℚ := l.foldr (· + ·) 0

/-- `np.mean` of a list of finite values: `none` on the empty list
(numpy yields NaN there), otherwise the arithmetic mean. -/
def qmean (l : List ℚ) : Option ℚ :=
  if l.isEmpty then none else some (qsum l / (l.length : ℚ))

/-- `np.mean` of a list of possibly non-finite values: the mean is
non-finite when the list is empty or any entry is non-finite. -/
def omean (l : List (Option ℚ)) : Option ℚ :=
  if l.isEmpty || l.any (·.isNone) then none
  else some (qsum (l.map (·.getD 0)) / (l.length : ℚ))

/-- Minimum of a nonempty list (0 for the empty list, a case the code
never reaches because it is guarded by a nonemptiness check). -/
def qminimum (l : List ℚ) : ℚ :=
  match l with
  | [] => 0
  | x :: xs => xs.foldl min x

/-- Maximum of a nonempty list (0 for the empty list, same guard). -/
def qmaximum (l : List ℚ) : ℚ :=
  match l with
  | [] => 0
  | x :: xs => xs.foldl max x

/-- `np.abs` on rationals. -/
def qabs (q : ℚ) : ℚ := if q < 0 then -q else q

/-- `np.sign` on rationals. -/
def qsign (q : ℚ) : Int := if q < 0 then -1 else if q = 0 then 0 else 1

/-- `sklearn.metrics.auc`, modelled from the spec (glossary: "AUC:
trapezoidal-integral area under the ... curve"): trapezoidal integration
of `y` over `x` (`np.trapz`). -/
def trapzQ : List ℚ → List ℚ → ℚ
  | x1 :: xs, y1 :: ys =>
      (match xs, ys with
       | x2 :: _, y2 :: _ => (x2 - x1) * (y1 + y2) / 2
       | _, _ => 0) + trapzQ xs ys
  | _, _ => 0

/-- Inclusive positional slice `iloc[a : b+1]`. -/
def sliceIncl (l : List α) (a b : ℕ) : List α := (l.drop a).take (b + 1 - a)

/-- `detect_zcr` (new_walking_feature.py:83): indices `i` with a sign
change between samples `i` and `i+1`
(`np.where(np.diff(np.sign(array)))[0]`). -/
def detect_zcr (l : List ℚ) : List ℕ :=
  (List.range (l.length - 1)).filter
    (fun i => qsign (l.getD i 0) ≠ qsign (l.getD (i + 1) 0))

/-- One row of the dataframe produced by `calculate_rotation`. -/
structure TurnEvent where
  td : ℚ
  auc : ℚ
  turn_duration : ℚ
  aucXt : ℚ
deriving DecidableEq, Repr

/-- The `for i in zcr_list` loop of `calculate_rotation`
(new_walking_feature.py:208-219), carrying the running `start` index.
`tds` is the `td` column, `ys` the filtered orientation column. -/
def calcRotAux (tds ys : List ℚ) : List ℕ → ℕ → List TurnEvent
  | [], _ => []
  | i :: rest, start =>
      let x := sliceIncl tds start i
      let y := sliceIncl ys start i
      let dur := tds.getD (i + 1) 0 - tds.getD start 0
      if 2 ≤ y.length then
        { td := x.getLastD 0
          auc := qabs (trapzQ x y)
          turn_duration := dur
          aucXt := qabs (trapzQ x y) * dur } :: calcRotAux tds ys rest (i + 1)
      else calcRotAux tds ys rest (i + 1)

/-- Segmentation core of `calculate_rotation`: the event list produced from
a `td` column and an already filtered rotation column. -/
def rotationEvents (tds ys : List ℚ) : List TurnEvent :=
  calcRotAux tds ys (detect_zcr ys) 0

/-- `calculate_rotation` (new_walking_feature.py:189-221): low-pass filter
the orientation column (the filter is the scipy Butterworth filter, passed
here as `filt`), then segment at the zero crossings.  `rows` are the
`(td, orientation)` column pairs of the rotation dataframe. -/
def calculate_rotation (filt : List ℚ → List ℚ) (rows : List (ℚ × ℚ)) :
    List TurnEvent :=
  rotationEvents (rows.map Prod.fst) (filt (rows.map Prod.snd))

/-- Spec-side reformulation of the segmentation: every crossing `i` is
paired with its interval start (0 for the first crossing, previous
crossing + 1 afterwards); intervals with at least 2 samples yield an
event whose duration reaches to the sample one past the interval. -/
def rotationEventsSpec (tds ys : List ℚ) : List TurnEvent :=
  let c := detect_zcr ys
  (c.zip (0 :: c.map (· + 1))).filterMap (fun p =>
    let i := p.1
    let s := p.2
    let x := sliceIncl tds s i
    let y := sliceIncl ys s i
    let a := qabs (trapzQ x y)
    let dur := tds.getD (i + 1) 0 - tds.getD s 0
    if 2 ≤ y.length then
      some { td := x.getLastD 0, auc := a, turn_duration := dur,
             aucXt := a * dur }
    else none)

/-- The segmentation as claim C2 words it: the duration of an event is the
`td` of the last sample of the taken sub-series minus the `td` of its
first sample, and `aucXt` uses that duration. -/
def rotationEventsClaimed (tds ys : List ℚ) : List TurnEvent :=
  let c := detect_zcr ys
  (c.zip (0 :: c.map (· + 1))).filterMap (fun p =>
    let i := p.1
    let s := p.2
    let x := sliceIncl tds s i
    let y := sliceIncl ys s i
    let a := qabs (trapzQ x y)
    let dur := x.getLastD 0 - x.headD 0
    if 2 ≤ y.length then
      some { td := x.getLastD 0, auc := a, turn_duration := dur,
             aucXt := a * dur }
    else none)

theorem calcRotAux_zip_spec (tds ys : List ℚ) (c : List ℕ) (s0 : ℕ) :
    calcRotAux tds ys c s0 =
      (c.zip (s0 :: c.map (· + 1))).filterMap (fun p =>
        let i := p.1
        let s := p.2
        let x := sliceIncl tds s i
        let y := sliceIncl ys s i
        let a := qabs (trapzQ x y)
        let dur := tds.getD (i + 1) 0 - tds.getD s 0
        if 2 ≤ y.length then
          some { td := x.getLastD 0, auc := a, turn_duration := dur,
                 aucXt := a * dur }
        else none) := by
  induction c generalizing s0 with
  | nil => rfl
  | cons i rest ih =>
      simp only [calcRotAux, List.zip_cons_cons, List.filterMap_cons,
        List.map_cons]
      by_cases h : 2 ≤ (sliceIncl ys s0 i).length
      · simp only [if_pos h]
        rw [ih (i + 1)]
      · simp only [if_neg h]
        rw [ih (i + 1)]

/-- One sensor sample row as the pipeline sees it for a frame input
(`sensorType`, elapsed time `td`, and the orientation axis `y` that the
feature extraction reads; the unused axes are omitted). -/
structure Row where
  sensorType : String
  td : ℚ
  y : ℚ
deriving DecidableEq, Repr

/-- One row of the overlay dataframe returned by `create_overlay_data`
after both fill steps (columns `td`, `y`, `aucXt`, `turn_duration`). -/
structure MergedRow where
  td : ℚ
  y : ℚ
  aucXt : ℚ
  turn_duration : ℚ
deriving DecidableEq, Repr

/-- `pd.merge(accel_data, rotation_data, on = "td", how = "left")`
(new_walking_feature.py:256): each acceleration row is kept; it is paired
with every TurnEvent row of equal `td`, or with no event when none
matches. -/
def mergeLeft (accel : List Row) (evs : List TurnEvent) :
    List (Row × Option TurnEvent) :=
  accel.flatMap (fun r =>
    match evs.filter (fun e => e.td == r.td) with
    | [] => [(r, none)]
    | ms => ms.map (fun e => (r, some e)))

/-- pandas `fillna(method = "bfill")`: each missing entry takes the nearest
following known value; entries with no following known value stay
missing. -/
def bfill : List (Option ℚ) → List (Option ℚ)
  | [] => []
  | x :: xs =>
      (match x with
       | some v => some v
       | none => (bfill xs).headD none) :: bfill xs

/-- `create_overlay_data` (new_walking_feature.py:252-262): left join on
`td`, then backward-fill and zero-fill the `aucXt` and `turn_duration`
columns. -/
def create_overlay_data (accel : List Row) (evs : List TurnEvent) :
    List MergedRow :=
  let base := mergeLeft accel evs
  let aucs := (bfill (base.map (fun p => p.2.map TurnEvent.aucXt))).map
    (·.getD 0)
  let durs := (bfill (base.map (fun p => p.2.map TurnEvent.turn_duration))).map
    (·.getD 0)
  (base.zip (aucs.zip durs)).map (fun q =>
    { td := q.1.1.td, y := q.1.1.y, aucXt := q.2.1, turn_duration := q.2.2 })

theorem bfill_length (m : List (Option ℚ)) : (bfill m).length = m.length := by
  induction m with
  | nil => rfl
  | cons x xs ih => simp [bfill, ih]

theorem bfill_getD (m : List (Option ℚ)) (i : ℕ) :
    (bfill m).getD i none = (m.drop i).findSome? id := by
  induction m generalizing i with
  | nil => simp [bfill]
  | cons x xs ih =>
      cases i with
      | zero =>
          cases x with
          | some v => simp [bfill, List.findSome?]
          | none =>
              simp only [bfill, List.getD, List.drop_zero, List.findSome?_cons,
                id_eq]
              have := ih 0
              rw [List.headD_eq_head?_getD, List.head?_eq_getElem?]
              simpa [List.getD] using this
      | succ j => simpa [bfill] using ih j

theorem bfill_none_trailing (m : List (Option ℚ)) (i j : ℕ)
    (h : (bfill m).getD i none = none) (hij : i ≤ j) :
    m.getD j none = none := by
  rw [bfill_getD] at h
  rcases Nat.exists_eq_add_of_le hij with ⟨k, rfl⟩
  have hfind := List.findSome?_eq_none_iff.mp h
  by_cases hm : i + k < m.length
  · have hlt : k < (m.drop i).length := by
      simpa [List.length_drop] using Nat.lt_sub_of_add_lt (by omega)
    have hmem : m.getD (i + k) none ∈ m.drop i := by
      have heq : m.getD (i + k) none = (m.drop i).getD k none := by
        rw [List.getD_eq_getElem?_getD, List.getD_eq_getElem?_getD,
          List.getElem?_drop]
      rw [heq, List.getD_eq_getElem?_getD, List.getElem?_eq_getElem hlt]
      exact List.getElem_mem hlt
    rcases hx : m.getD (i + k) none with _ | v
    · rfl
    · have hcontr := hfind _ hmem
      rw [hx] at hcontr
      exact absurd hcontr (by simp)
  · rw [List.getD_eq_getElem?_getD, List.getElem?_eq_none (by omega)]
    rfl

theorem bfill_map_getD (m : List (Option ℚ)) :
    (bfill m).map (·.getD 0) =
      (List.range m.length).map (fun i => ((m.drop i).findSome? id).getD 0) := by
  apply List.ext_getElem
  · simp [bfill_length]
  · intro i h1 h2
    have hi : i < (bfill m).length := by simpa using h1
    have hgd : (bfill m).getD i none = (bfill m)[i] :=
      List.getD_eq_getElem (bfill m) none hi
    simp only [List.getElem_map, List.getElem_range]
    rw [← hgd, bfill_getD]

theorem overlay_aucXt_col (accel : List Row) (evs : List TurnEvent) :
    (create_overlay_data accel evs).map MergedRow.aucXt =
      (bfill ((mergeLeft accel evs).map
        (fun p => p.2.map TurnEvent.aucXt))).map (·.getD 0) := by
  apply List.ext_getElem
  · simp [create_overlay_data, bfill_length]
  · intro i h1 h2
    simp [create_overlay_data, List.getElem_zip]

theorem overlay_dur_col (accel : List Row) (evs : List TurnEvent) :
    (create_overlay_data accel evs).map MergedRow.turn_duration =
      (bfill ((mergeLeft accel evs).map
        (fun p => p.2.map TurnEvent.turn_duration))).map (·.getD 0) := by
  apply List.ext_getElem
  · simp [create_overlay_data, bfill_length]
  · intro i h1 h2
    simp [create_overlay_data, List.getElem_zip]

/-- The longest prefix of `xs` that continues the run of successive
integers started at `x`, together with the remainder of `xs`. -/
def chainRun : ℕ → List ℕ → List ℕ × List ℕ
  | _, [] => ([], [])
  | x, y :: ys =>
      if y = x + 1 then
        ((y :: (chainRun y ys).1), (chainRun y ys).2)
      else ([], y :: ys)

theorem chainRun_snd_length (x : ℕ) (xs : List ℕ) :
    (chainRun x xs).2.length ≤ xs.length := by
  induction xs generalizing x with
  | nil => simp [chainRun]
  | cons y ys ih =>
      by_cases h : y = x + 1
      · simp only [chainRun, if_pos h]
        exact le_trans (ih y) (Nat.le_succ _)
      · simp [chainRun, if_neg h]

/-- `separate_array_sequence` (new_walking_feature.py:265-277):
`groupby(enumerate(seq), lambda x: x[0] - x[1])` groups consecutive
positions with a constant enumeration-index-minus-value key; since the
enumeration index advances by exactly one per element, two adjacent
elements share a key exactly when the second is the successor of the
first, so the groups are the maximal runs of successive integers. -/
def separate_array_sequence : List ℕ → List (List ℕ)
  | [] => []
  | x :: xs =>
      (x :: (chainRun x xs).1) :: separate_array_sequence (chainRun x xs).2
termination_by l => l.length
decreasing_by
  simp only [List.length_cons]
  exact Nat.lt_succ_of_le (chainRun_snd_length x xs)

theorem chainRun_append (x : ℕ) (xs : List ℕ) :
    (chainRun x xs).1 ++ (chainRun x xs).2 = xs := by
  induction xs generalizing x with
  | nil => simp [chainRun]
  | cons y ys ih =>
      by_cases h : y = x + 1
      · simp only [chainRun, if_pos h, List.cons_append]
        rw [ih y]
      · simp [chainRun, if_neg h]

theorem chainRun_fst_range (x : ℕ) (xs : List ℕ) :
    x :: (chainRun x xs).1 =
      List.range' x ((chainRun x xs).1.length + 1) := by
  induction xs generalizing x with
  | nil => simp [chainRun, List.range']
  | cons y ys ih =>
      by_cases h : y = x + 1
      · simp only [chainRun, if_pos h, List.length_cons]
        rw [List.range'_succ]
        subst h
        rw [← ih (x + 1)]
      · simp [chainRun, if_neg h, List.range']

theorem chainRun_snd_head (x : ℕ) (xs : List ℕ) (y : ℕ) (t : List ℕ)
    (h : (chainRun x xs).2 = y :: t) :
    y ≠ x + (chainRun x xs).1.length + 1 := by
  induction xs generalizing x with
  | nil => simp [chainRun] at h
  | cons z zs ih =>
      by_cases hz : z = x + 1
      · simp only [chainRun, if_pos hz] at h ⊢
        have := ih z h
        simp only [List.length_cons]
        omega
      · simp only [chainRun, if_neg hz] at h ⊢
        cases h
        simpa using hz

theorem sas_flatten_bounded :
    ∀ (n : ℕ) (l : List ℕ), l.length ≤ n →
      (separate_array_sequence l).flatten = l := by
  intro n
  induction n with
  | zero =>
      intro l hl
      rw [List.length_eq_zero.mp (Nat.le_zero.mp hl)]
      simp [separate_array_sequence]
  | succ n ih =>
      intro l hl
      cases l with
      | nil => simp [separate_array_sequence]
      | cons x xs =>
          rw [separate_array_sequence]
          simp only [List.flatten_cons]
          have hlen : (chainRun x xs).2.length ≤ n := by
            have := chainRun_snd_length x xs
            simp only [List.length_cons] at hl
            omega
          rw [ih _ hlen]
          simp [chainRun_append]

theorem sas_flatten (l : List ℕ) :
    (separate_array_sequence l).flatten = l :=
  sas_flatten_bounded l.length l le_rfl

theorem sas_count_sum (l : List ℕ) (i : ℕ) :
    ((separate_array_sequence l).map (List.count i)).sum = l.count i := by
  rw [← List.count_flatten, sas_flatten]

theorem sas_maximal_bounded :
    ∀ (n : ℕ) (l : List ℕ), l.length ≤ n → l.Sorted (· < ·) →
      ∀ g ∈ separate_array_sequence l, ∃ a k, g = List.range' a k ∧
        0 < k ∧ (∀ m ∈ g, m ∈ l) ∧ (a = 0 ∨ (a - 1) ∉ l) ∧ (a + k) ∉ l := by
  intro n
  induction n with
  | zero =>
      intro l hl _ g hg
      rw [List.length_eq_zero.mp (Nat.le_zero.mp hl)] at hg
      simp [separate_array_sequence] at hg
  | succ n ih =>
      intro l hl hs g hg
      cases l with
      | nil => simp [separate_array_sequence] at hg
      | cons x xs =>
          rw [separate_array_sequence] at hg
          have hsplit : (x :: (chainRun x xs).1) ++ (chainRun x xs).2 =
              x :: xs := by
            simp [chainRun_append]
          have hrange := chainRun_fst_range x xs
          have hpair : List.Pairwise (· < ·) ((x :: (chainRun x xs).1) ++
              (chainRun x xs).2) := by rw [hsplit]; exact hs
          rw [List.pairwise_append] at hpair
          obtain ⟨hS1, hS2, hcross⟩ := hpair
          have hlast_mem : x + (chainRun x xs).1.length ∈
              x :: (chainRun x xs).1 := by
            rw [hrange, List.mem_range'_1]
            omega
          rcases List.mem_cons.mp hg with hg | hg
          · -- the first group
            refine ⟨x, (chainRun x xs).1.length + 1, by rw [hg, hrange],
              Nat.succ_pos _, ?_, ?_, ?_⟩
            · intro m hm
              rw [← hsplit]
              exact List.mem_append_left _ (hg ▸ hm)
            · by_cases hx0 : x = 0
              · exact Or.inl hx0
              · refine Or.inr ?_
                intro hmem
                rcases List.mem_cons.mp hmem with heq | hmem
                · omega
                · have := List.rel_of_sorted_cons hs _ hmem
                  omega
            · intro hmem
              rw [← hsplit] at hmem
              rcases List.mem_append.mp hmem with hmem | hmem
              · rw [hrange, List.mem_range'_1] at hmem
                omega
              · rcases hc2 : (chainRun x xs).2 with _ | ⟨y, t⟩
                · rw [hc2] at hmem
                  simp at hmem
                · have hy := chainRun_snd_head x xs y t hc2
                  have hylast : x + (chainRun x xs).1.length < y :=
                    hcross _ hlast_mem y (by rw [hc2]; exact List.mem_cons_self _ _)
                  have hwge : ∀ w ∈ (chainRun x xs).2,
                      x + (chainRun x xs).1.length + 2 ≤ w := by
                    intro w hw
                    rw [hc2] at hw
                    rcases List.mem_cons.mp hw with heq | hw
                    · omega
                    · have : y < w := by
                        have := List.rel_of_sorted_cons (hc2 ▸ hS2) _ hw
                        exact this
                      omega
                  have := hwge _ hmem
                  omega
          · -- a later group, from the recursive call on the remainder
            have hlen2 : (chainRun x xs).2.length ≤ n := by
              have := chainRun_snd_length x xs
              simp only [List.length_cons] at hl
              omega
            obtain ⟨a, k, hga, hk, hmem2, hleft2, hright2⟩ :=
              ih (chainRun x xs).2 hlen2 hS2 g hg
            have ha_mem : a ∈ (chainRun x xs).2 := by
              apply hmem2
              rw [hga, List.mem_range'_1]
              omega
            have hlast_lt : x + (chainRun x xs).1.length < a :=
              hcross _ hlast_mem a ha_mem
            refine ⟨a, k, hga, hk, ?_, ?_, ?_⟩
            · intro m hm
              rw [← hsplit]
              exact List.mem_append_right _ (hmem2 m hm)
            · rcases hleft2 with h0 | hnot
              · exact Or.inl h0
              · by_cases ha0 : a = 0
                · exact Or.inl ha0
                · refine Or.inr ?_
                  intro hmem
                  rw [← hsplit] at hmem
                  rcases List.mem_append.mp hmem with hmem | hmem
                  · -- a-1 inside the first consecutive block: forces the
                    -- remainder to start exactly one past that block,
                    -- contradicting the chain stop condition
                    rw [hrange, List.mem_range'_1] at hmem
                    rcases hc2 : (chainRun x xs).2 with _ | ⟨y, t⟩
                    · rw [hc2] at ha_mem
                      simp at ha_mem
                    · have hy := chainRun_snd_head x xs y t hc2
                      have hylast : x + (chainRun x xs).1.length < y :=
                        hcross _ hlast_mem y
                          (by rw [hc2]; exact List.mem_cons_self _ _)
                      have hya : y ≤ a := by
                        rw [hc2] at ha_mem
                        rcases List.mem_cons.mp ha_mem with heq | hmem3
                        · omega
                        · have := List.rel_of_sorted_cons (hc2 ▸ hS2) _ hmem3
                          omega
                      omega
                  · exact hnot hmem
            · intro hmem
              rw [← hsplit] at hmem
              rcases List.mem_append.mp hmem with hmem | hmem
              · rw [hrange, List.mem_range'_1] at hmem
                omega
              · exact hright2 hmem

theorem sas_maximal (l : List ℕ) (hs : l.Sorted (· < ·)) :
    ∀ g ∈ separate_array_sequence l, ∃ a k, g = List.range' a k ∧
      0 < k ∧ (∀ m ∈ g, m ∈ l) ∧ (a = 0 ∨ (a - 1) ∉ l) ∧ (a + k) ∉ l :=
  sas_maximal_bounded l.length l le_rfl hs

/-- The walking indices of the merged timeline:
`np.where(data["aucXt"] < 2)[0]` (new_walking_feature.py:305). -/
def walkingIndices (v : List ℚ) : List ℕ :=
  (List.range v.length).filter (fun i => decide (v.getD i 0 < 2))

/-- `walking_seqs` (new_walking_feature.py:305): the maximal runs of
consecutive walking indices of the merged timeline. -/
def walkingBouts (v : List ℚ) : List (List ℕ) :=
  separate_array_sequence (walkingIndices v)

theorem mem_walkingIndices (v : List ℚ) (i : ℕ) :
    i ∈ walkingIndices v ↔ i < v.length ∧ v.getD i 0 < 2 := by
  simp [walkingIndices, List.mem_filter, List.mem_range]

theorem walkingIndices_sorted (v : List ℚ) :
    (walkingIndices v).Sorted (· < ·) :=
  List.Pairwise.filter _ (List.sorted_lt_range v.length)

theorem walkingIndices_nodup (v : List ℚ) : (walkingIndices v).Nodup :=
  (List.nodup_range v.length).filter _

theorem pairwise_disjoint_of_count_sum (L : List (List ℕ))
    (h : ∀ i, ((L.map (List.count i)).sum ≤ 1)) :
    L.Pairwise (fun g1 g2 => ∀ i, i ∈ g1 → i ∉ g2) := by
  induction L with
  | nil => exact List.Pairwise.nil
  | cons g gs ih =>
      refine List.Pairwise.cons ?_ (ih ?_)
      · intro g2 hg2 i hig hig2
        have h1 := h i
        simp only [List.map_cons, List.sum_cons] at h1
        have hcg : 0 < g.count i := List.count_pos_iff.mpr hig
        have hcg2 : 0 < g2.count i := List.count_pos_iff.mpr hig2
        have hle : g2.count i ≤ (gs.map (List.count i)).sum :=
          List.single_le_sum (fun x _ => Nat.zero_le x) _
            (List.mem_map_of_mem _ hg2)
        omega
      · intro i
        have h1 := h i
        simp only [List.map_cons, List.sum_cons] at h1
        omega

/-- Change points of the padded zero-flag sequence: `bnds prev off zs`
lists the positions where the flag differs from the preceding one, the
scan starting with previous flag `prev` at position `off`.  This is
`np.where(np.abs(np.diff(iszero)))[0]` of `zero_runs`
(new_walking_feature.py:76-80) with `iszero` padded by a leading and
trailing 0, realised as a left-to-right scan. -/
def bnds : Bool → ℕ → List Bool → List ℕ
  | _, _, [] => []
  | prev, off, b :: bs =>
      if b = prev then bnds b (off + 1) bs
      else off :: bnds b (off + 1) bs

/-- `reshape(-1, 2)`: consecutive boundary positions paired up as
(run start, exclusive run end). -/
def pairUp : List ℕ → List (ℕ × ℕ)
  | a :: b :: rest => (a, b) :: pairUp rest
  | _ => []

/-- `zero_runs` (new_walking_feature.py:67-81): the (start, exclusive end)
index pairs of the maximal runs of zeros of `l`, via the zero-indicator
change points of the padded flag sequence. -/
def zero_runs (l : List ℚ) : List (ℕ × ℕ) :=
  pairUp (bnds false 0 (l.map (fun q => decide (q = 0)) ++ [false]))

/-- Length of the run of `true` flags immediately before position `i`. -/
def truesBefore (bs : List Bool) (i : ℕ) : ℕ :=
  ((bs.take i).reverse.takeWhile id).length

/-- Length of the run of `true` flags starting at position `i`. -/
def truesFrom (bs : List Bool) (i : ℕ) : ℕ :=
  ((bs.drop i).takeWhile id).length

theorem bnds_mem_bounds :
    ∀ (zs : List Bool) (prev : Bool) (off : ℕ), ∀ j ∈ bnds prev off zs,
      off ≤ j ∧ j < off + zs.length := by
  intro zs
  induction zs with
  | nil => intro prev off j hj; simp [bnds] at hj
  | cons b bs ih =>
      intro prev off j hj
      by_cases hb : b = prev
      · rw [bnds, if_pos hb] at hj
        have := ih b (off + 1) j hj
        simp only [List.length_cons]
        omega
      · rw [bnds, if_neg hb] at hj
        rcases List.mem_cons.mp hj with rfl | hj
        · simp only [List.length_cons]; omega
        · have := ih b (off + 1) j hj
          simp only [List.length_cons]
          omega

theorem pairUp_mem :
    ∀ (js : List ℕ) (p : ℕ × ℕ), p ∈ pairUp js → p.1 ∈ js ∧ p.2 ∈ js
  | a :: b :: rest, p, h => by
      rcases List.mem_cons.mp h with rfl | h
      · exact ⟨List.mem_cons_self _ _,
          List.mem_cons_of_mem _ (List.mem_cons_self _ _)⟩
      · have := pairUp_mem rest p h
        exact ⟨List.mem_cons_of_mem _ (List.mem_cons_of_mem _ this.1),
          List.mem_cons_of_mem _ (List.mem_cons_of_mem _ this.2)⟩
  | [], _, h => by simp [pairUp] at h
  | [_], _, h => by simp [pairUp] at h

theorem takeWhile_id_append_false (A B : List Bool) :
    (A ++ false :: B).takeWhile id = A.takeWhile id := by
  induction A with
  | nil => simp [List.takeWhile]
  | cons a as ih =>
      cases a with
      | true => simp [List.takeWhile_cons, ih]
      | false => simp [List.takeWhile_cons]

theorem takeWhile_id_replicate (n : ℕ) :
    (List.replicate n true).takeWhile id = List.replicate n true := by
  induction n with
  | zero => rfl
  | succ n ih => simp [List.replicate_succ, List.takeWhile_cons, ih]

/-- The boundary scan inside a run of `true` flags: the next boundary sits
one past the end of the run, and the scan resumes after the flag that
closed it. -/
theorem bnds_true (ys : List Bool) : ∀ o : ℕ,
    bnds true o (ys ++ [false]) =
      (o + (ys.takeWhile id).length) ::
        bnds false (o + (ys.takeWhile id).length + 1)
          (((ys.dropWhile id).drop 1) ++ [false]) := by
  induction ys with
  | nil =>
      intro o
      simp [bnds]
  | cons z zs ih =>
      intro o
      cases z with
      | true =>
          simp only [List.cons_append, bnds, eq_self_iff_true, if_true,
            List.append_eq]
          rw [ih (o + 1)]
          simp only [List.takeWhile_cons, List.dropWhile_cons, id,
            eq_self_iff_true, if_true, List.length_cons]
          have e1 : o + 1 + (List.takeWhile id zs).length =
              o + ((List.takeWhile id zs).length + 1) := by omega
          rw [e1]
      | false =>
          simp only [List.cons_append, bnds]
          rw [if_neg (by simp)]
          simp [List.takeWhile_cons, List.dropWhile_cons]

/-- Characterisation of the paired boundary positions: position `off + i`
is covered by a paired run of length at least `c` exactly when flag `i`
is set and the maximal run of set flags around position `i` has length at
least `c`. -/
theorem cover_iff_bounded :
    ∀ (n : ℕ) (bs : List Bool), bs.length ≤ n → ∀ (off c i : ℕ),
      ((∃ p ∈ pairUp (bnds false off (bs ++ [false])),
        c ≤ p.2 - p.1 ∧ p.1 ≤ off + i ∧ off + i < p.2) ↔
      (i < bs.length ∧ bs.getD i false = true ∧
        c ≤ truesBefore bs i + truesFrom bs i)) := by
  intro n
  induction n with
  | zero =>
      intro bs hbs off c i
      rw [List.length_eq_zero.mp (Nat.le_zero.mp hbs)]
      constructor
      · rintro ⟨p, hp, -⟩
        simp [bnds, pairUp] at hp
      · rintro ⟨h, -⟩
        simp at h
  | succ n ih =>
      intro bs hbs off c i
      cases bs with
      | nil =>
          constructor
          · rintro ⟨p, hp, -⟩
            simp [bnds, pairUp] at hp
          · rintro ⟨h, -⟩
            simp at h
      | cons b cs =>
          have hcs_len : cs.length ≤ n := by
            simp only [List.length_cons] at hbs
            omega
          cases b with
          | false =>
              have hb : bnds false off ((false :: cs) ++ [false]) =
                  bnds false (off + 1) (cs ++ [false]) := by
                simp [bnds]
              cases i with
              | zero =>
                  constructor
                  · rintro ⟨p, hp, hc, h1, h2⟩
                    rw [hb] at hp
                    have hbd := bnds_mem_bounds _ _ _ _ (pairUp_mem _ _ hp).1
                    omega
                  · rintro ⟨-, h, -⟩
                    simp at h
              | succ j =>
                  have heq := ih cs hcs_len (off + 1) c j
                  have hoff : off + (j + 1) = off + 1 + j := by omega
                  have htb : truesBefore (false :: cs) (j + 1) =
                      truesBefore cs j := by
                    unfold truesBefore
                    rw [List.take_succ_cons, List.reverse_cons]
                    rw [show (cs.take j).reverse ++ [false] =
                      (cs.take j).reverse ++ false :: [] from rfl]
                    rw [takeWhile_id_append_false]
                  have htf : truesFrom (false :: cs) (j + 1) =
                      truesFrom cs j := by
                    unfold truesFrom
                    rw [List.drop_succ_cons]
                  rw [hb, hoff, htb, htf]
                  rw [heq]
                  simp [List.getD_cons_succ]
          | true =>
              have hrep : cs.takeWhile id =
                  List.replicate (cs.takeWhile id).length true :=
                List.eq_replicate_of_mem (fun b hb => by
                  have := List.mem_takeWhile_imp hb
                  simpa using this)
              have hsplit : true :: cs =
                  List.replicate ((cs.takeWhile id).length + 1) true ++
                    cs.dropWhile id := by
                rw [List.replicate_succ, List.cons_append]
                nth_rewrite 1 [← List.takeWhile_append_dropWhile id cs]
                rw [← hrep]
              have hpair : pairUp (bnds false off ((true :: cs) ++ [false])) =
                  (off, off + 1 + (cs.takeWhile id).length) ::
                    pairUp (bnds false
                      (off + 1 + (cs.takeWhile id).length + 1)
                      ((cs.dropWhile id).drop 1 ++ [false])) := by
                rw [List.cons_append, bnds, if_neg (by simp), bnds_true]
                rw [pairUp]
              by_cases hiK : i < (cs.takeWhile id).length + 1
              · -- inside the leading run of zeros
                have hRlen : i < (true :: cs).length := by
                  simp only [List.length_cons]
                  have : (cs.takeWhile id).length ≤ cs.length :=
                    List.Sublist.length_le (List.takeWhile_sublist _)
                  omega
                have hget : (true :: cs).getD i false = true := by
                  rw [hsplit, List.getD_append _ _ _ i
                    (by simp only [List.length_replicate]; omega)]
                  rw [List.getD_eq_getElem _ _
                    (by simp only [List.length_replicate]; omega)]
                  exact List.getElem_replicate ..
                have htb : truesBefore (true :: cs) i = i := by
                  unfold truesBefore
                  rw [hsplit, List.take_append_of_le_length
                    (by simp only [List.length_replicate]; omega)]
                  rw [List.take_replicate]
                  rw [show i ⊓ ((cs.takeWhile id).length + 1) = i by omega]
                  rw [List.reverse_replicate, takeWhile_id_replicate,
                    List.length_replicate]
                have htf : truesFrom (true :: cs) i =
                    (cs.takeWhile id).length + 1 - i := by
                  unfold truesFrom
                  rw [hsplit, List.drop_append_of_le_length
                    (by simp only [List.length_replicate]; omega)]
                  rw [List.drop_replicate]
                  rcases hrest : cs.dropWhile id with _ | ⟨r, rest0⟩
                  · rw [List.append_nil, takeWhile_id_replicate,
                      List.length_replicate]
                  · have hr : r = false := by
                      have h := List.head?_dropWhile_not id cs
                      rw [hrest] at h
                      simpa using h
                    rw [hr, takeWhile_id_append_false,
                      takeWhile_id_replicate, List.length_replicate]
                constructor
                · rintro ⟨p, hp, hc, h1, h2⟩
                  rw [hpair] at hp
                  rcases List.mem_cons.mp hp with rfl | hp
                  · refine ⟨hRlen, hget, ?_⟩
                    rw [htb, htf]
                    simp only at hc
                    omega
                  · have hbd := bnds_mem_bounds _ _ _ _ (pairUp_mem _ _ hp).1
                    omega
                · rintro ⟨-, -, hcle⟩
                  refine ⟨(off, off + 1 + (cs.takeWhile id).length), ?_, ?_, ?_, ?_⟩
                  · rw [hpair]
                    exact List.mem_cons_self _ _
                  · simp only
                    rw [htb, htf] at hcle
                    omega
                  · omega
                  · simp only
                    omega
              · -- at or past the end of the leading run
                rcases hrest : cs.dropWhile id with _ | ⟨r, rest0⟩
                · -- no remainder: the whole sequence is the single run
                  have hlen_bs : (true :: cs).length =
                      (cs.takeWhile id).length + 1 := by
                    rw [hsplit, hrest, List.append_nil,
                      List.length_replicate]
                  constructor
                  · rintro ⟨p, hp, hc, h1, h2⟩
                    rw [hpair, hrest] at hp
                    rcases List.mem_cons.mp hp with rfl | hp
                    · simp only at h2
                      omega
                    · simp [bnds, pairUp] at hp
                  · rintro ⟨hl, -, -⟩
                    rw [hlen_bs] at hl
                    omega
                · have hr : r = false := by
                    have h := List.head?_dropWhile_not id cs
                    rw [hrest] at h
                    simpa using h
                  subst hr
                  rw [hrest] at hpair
                  simp only [List.drop_succ_cons, List.drop_zero] at hpair
                  have hlen_bs : (true :: cs).length =
                      (cs.takeWhile id).length + 2 + rest0.length := by
                    rw [hsplit, hrest]
                    simp only [List.length_append, List.length_replicate,
                      List.length_cons]
                    omega
                  by_cases hiK2 : i = (cs.takeWhile id).length + 1
                  · -- exactly the separating non-zero position
                    constructor
                    · rintro ⟨p, hp, hc, h1, h2⟩
                      rw [hpair] at hp
                      rcases List.mem_cons.mp hp with rfl | hp
                      · simp only at h2
                        omega
                      · have hbd := bnds_mem_bounds _ _ _ _
                          (pairUp_mem _ _ hp).1
                        omega
                    · rintro ⟨-, hget, -⟩
                      rw [hsplit, hrest, List.getD_append_right _ _ _ _
                        (by simp only [List.length_replicate]; omega)] at hget
                      rw [show i - (List.replicate
                        ((cs.takeWhile id).length + 1) true).length = 0 by
                          simp only [List.length_replicate]; omega] at hget
                      simp at hget
                  · -- strictly past the separator: recurse on the remainder
                    have hi' : i = (cs.takeWhile id).length + 2 +
                        (i - (cs.takeWhile id).length - 2) := by omega
                    set i2 := i - (cs.takeWhile id).length - 2 with hi2
                    have hrest0_len : rest0.length ≤ n := by
                      have h1 : cs.length = (cs.takeWhile id).length +
                          1 + rest0.length := by
                        conv_lhs => rw [← List.takeWhile_append_dropWhile
                          id cs]
                        rw [hrest]
                        simp only [List.length_append, List.length_cons]
                        omega
                      omega
                    have heq := ih rest0 hrest0_len
                      (off + 1 + (cs.takeWhile id).length + 1) c i2
                    have hget2 : (true :: cs).getD i false =
                        rest0.getD i2 false := by
                      rw [hsplit, hrest, List.getD_append_right _ _ _ _
                        (by simp only [List.length_replicate]; omega)]
                      rw [show i - (List.replicate
                        ((cs.takeWhile id).length + 1) true).length =
                          i2 + 1 by simp only [List.length_replicate]; omega]
                      rw [List.getD_cons_succ]
                    have htb2 : truesBefore (true :: cs) i =
                        truesBefore rest0 i2 := by
                      unfold truesBefore
                      rw [hsplit, hrest, List.take_append_eq_append_take]
                      rw [List.take_replicate, show i ⊓ ((cs.takeWhile
                        id).length + 1) = (cs.takeWhile id).length + 1 by
                          omega]
                      rw [show i - (List.replicate ((cs.takeWhile
                        id).length + 1) true).length = i2 + 1 by
                          simp only [List.length_replicate]; omega]
                      rw [List.take_succ_cons, List.reverse_append,
                        List.reverse_cons, List.reverse_replicate]
                      simp only [List.append_assoc, List.singleton_append]
                      rw [takeWhile_id_append_false]
                    have htf2 : truesFrom (true :: cs) i =
                        truesFrom rest0 i2 := by
                      unfold truesFrom
                      rw [hsplit, hrest, List.drop_append_eq_append_drop]
                      rw [List.drop_replicate, show (cs.takeWhile
                        id).length + 1 - i = 0 by omega,
                        List.replicate_zero, List.nil_append]
                      rw [show i - (List.replicate ((cs.takeWhile
                        id).length + 1) true).length = i2 + 1 by
                          simp only [List.length_replicate]; omega]
                      rw [List.drop_succ_cons]
                    rw [hget2, htb2, htf2]
                    constructor
                    · rintro ⟨p, hp, hc, h1, h2⟩
                      rw [hpair] at hp
                      rcases List.mem_cons.mp hp with rfl | hp
                      · simp only at h2
                        omega
                      · have hcov := heq.mp ⟨p, hp, hc, by omega, by omega⟩
                        refine ⟨by omega, hcov.2.1, hcov.2.2⟩
                    · rintro ⟨hl, hg, hcle⟩
                      obtain ⟨p, hp, hc, h1, h2⟩ := heq.mpr
                        ⟨by omega, hg, hcle⟩
                      refine ⟨p, ?_, hc, by omega, by omega⟩
                      rw [hpair]
                      exact List.mem_cons_of_mem _ hp

/-- Spec-side notion for claim C6: position `i` of the series lies in a
maximal run of consecutive zeros of length at least `c` (the run extends
`truesBefore` positions to the left of `i` and `truesFrom` positions from
`i` onwards, so its total length is their sum). -/
def inBigZeroRun (l : List ℚ) (c i : ℕ) : Prop :=
  i < l.length ∧ l.getD i 1 = 0 ∧
    c ≤ truesBefore (l.map (fun q => decide (q = 0))) i +
        truesFrom (l.map (fun q => decide (q = 0))) i

instance (l : List ℚ) (c i : ℕ) : Decidable (inBigZeroRun l c i) := by
  unfold inBigZeroRun
  infer_instance

theorem zero_runs_cover (l : List ℚ) (c i : ℕ) :
    (∃ p ∈ zero_runs l, c ≤ p.2 - p.1 ∧ p.1 ≤ i ∧ i < p.2) ↔
      inBigZeroRun l c i := by
  have hget : ∀ hlt : i < l.length,
      ((l.map (fun q => decide (q = 0))).getD i false = true ↔
        l.getD i 1 = 0) := by
    intro hlt
    rw [List.getD_eq_getElem _ _ (by simpa using hlt),
      List.getD_eq_getElem _ _ hlt, List.getElem_map]
    simp
  have h := cover_iff_bounded (l.map (fun q => decide (q = 0))).length
    (l.map (fun q => decide (q = 0))) le_rfl 0 c i
  simp only [Nat.zero_add] at h
  rw [zero_runs, h, inBigZeroRun]
  simp only [List.length_map]
  constructor
  · rintro ⟨h1, h2, h3⟩
    exact ⟨h1, (hget h1).mp h2, h3⟩
  · rintro ⟨h1, h2, h3⟩
    exact ⟨h1, (hget h1).mpr h2, h3⟩

/-- One row of the per-window dataframe built inside
`calculate_number_of_steps_per_window` (columns `time`, `heel_strikes`,
`variance`, new_walking_feature.py:164-166). -/
structure WRow where
  time : ℕ
  heel_strikes : ℚ
  variance : ℚ
deriving DecidableEq, Repr

/-- Whether original row index `i` falls inside one of the zero runs of
length at least `cutoff` — the rows that the removal loop
(new_walking_feature.py:102-109) drops. -/
def removedIdx (rates : List ℚ) (cutoff i : ℕ) : Bool :=
  ((zero_runs rates).filter (fun p => decide (cutoff ≤ p.2 - p.1))).any
    (fun p => decide (p.1 ≤ i) && decide (i < p.2))

/-- `subset_data_non_zero_runs` (new_walking_feature.py:93-110): drop every
row whose original index lies in a zero run of `heel_strikes` of length at
least `cutoff`.  The source removes the runs one
`data.loc[~data.index.isin(range(a, b))]` at a time against the original
integer labels, which equals a single filter against the union of the
flagged ranges; the final `reset_index(drop = True)` renumbers the rows. -/
def subset_data_non_zero_runs (data : List WRow) (cutoff : ℕ) : List WRow :=
  ((data.enum.filter (fun p =>
    ! removedIdx (data.map WRow.heel_strikes) cutoff p.1)).map Prod.snd)

theorem removedIdx_iff (rates : List ℚ) (cutoff i : ℕ) :
    removedIdx rates cutoff i = true ↔ inBigZeroRun rates cutoff i := by
  rw [← zero_runs_cover]
  simp only [removedIdx, List.any_eq_true, List.mem_filter,
    Bool.and_eq_true, decide_eq_true_eq]
  constructor
  · rintro ⟨p, ⟨hp, hc⟩, h1, h2⟩
    exact ⟨p, hp, hc, h1, h2⟩
  · rintro ⟨p, hp, hc, h1, h2⟩
    exact ⟨p, ⟨hp, hc⟩, h1, h2⟩

/-- The window start positions of the sliding-window loop
(new_walking_feature.py:130-158): `jPos` starts at 257 and advances by 50
while `jPos < n`. -/
def windowPositions (n : ℕ) : List ℕ :=
  List.range' 257 (if n ≤ 257 then 0 else (n - 258) / 50 + 1) 50

/-- pandas `Series.var()` with its default `ddof = 1`. -/
def varQ (l : List ℚ) : ℚ :=
  if l.length ≤ 1 then 0
  else qsum (l.map (fun x => (x - qsum l / (l.length : ℚ)) ^ 2)) /
    ((l.length : ℚ) - 1)

/-- The per-window observation rows built by
`calculate_number_of_steps_per_window` (new_walking_feature.py:139-166):
one row per window position `jPos`, with the variance-gated heel-strike
count of the raw window divided by 256/100 (strikes per second) and the
variance of the corresponding filtered window; a failing detector is
caught and contributes 0. -/
def windowObs (filt : List ℚ → List ℚ) (det : List ℚ → Option ℕ)
    (ys : List ℚ) : List WRow :=
  (windowPositions ys.length).map (fun j =>
    let fwin := ((filt ys).drop (j - 256)).take 256
    let rwin := (ys.drop (j - 256)).take 256
    let strikes : ℚ :=
      if varQ fwin < 1 / 100 then 0 else ((det rwin).getD 0 : ℚ)
    { time := j, heel_strikes := strikes / (256 / 100),
      variance := varQ fwin })

/-- `calculate_number_of_steps_per_window` (new_walking_feature.py:113-186)
on an in-memory bout: build the window observations over the orientation
column `ys`, drop the zero runs of length ≥ 5, return 0 when no window
remains and the mean heel-strike rate of the remaining windows
otherwise. -/
def calculate_number_of_steps_per_window (filt : List ℚ → List ℚ)
    (det : List ℚ → Option ℕ) (ys : List ℚ) : ℚ :=
  let ts := subset_data_non_zero_runs (windowObs filt det ys) 5
  if ts.length = 0 then 0
  else qsum (ts.map WRow.heel_strikes) / (ts.length : ℚ)

theorem enumFrom_filter_map_sublist (p : ℕ × α → Bool) :
    ∀ (l : List α) (n : ℕ),
      (((List.enumFrom n l).filter p).map Prod.snd).Sublist l := by
  intro l
  induction l with
  | nil => intro n; simp
  | cons x xs ih =>
      intro n
      rw [List.enumFrom_cons, List.filter_cons]
      by_cases h : p (n, x) = true
      · rw [if_pos h, List.map_cons]
        exact List.Sublist.cons₂ x (ih (n + 1))
      · rw [if_neg h]
        exact List.Sublist.cons x (ih (n + 1))

theorem enumFrom_filter_map_snd (pb : α → Bool) :
    ∀ (l : List α) (n : ℕ),
      ((List.enumFrom n l).filter (fun q => pb q.2)).map Prod.snd =
        l.filter pb := by
  intro l
  induction l with
  | nil => intro n; simp
  | cons x xs ih =>
      intro n
      rw [List.enumFrom_cons, List.filter_cons, List.filter_cons]
      by_cases h : pb x = true
      · simp only [h, if_pos, List.map_cons, ih (n + 1)]
      · simp only [h]
        simp only [Bool.false_eq_true, if_false, ih (n + 1)]

/-- One raw sample row of a parsed recording file, before cleaning: a
timestamp, the three axis readings (possibly missing), and the sensor
kind.  The derived magnitude column `AA` is omitted: it involves a real
square root, and no claim touches it. -/
structure RawRow where
  timestamp : ℚ
  x : Option ℚ
  y : Option ℚ
  z : Option ℚ
  sensorType : String
deriving DecidableEq, Repr

/-- `data.dropna(subset = ["x", "y", "z"])`: keep rows with all three axis
readings present. -/
def hasXYZ (r : RawRow) : Bool := r.x.isSome && r.y.isSome && r.z.isSome

/-- The rows of `clean_accelerometer_data` after the `td` computation
(query_utils.py:147-151): `td` is the timestamp minus the timestamp of the
first row remaining after `dropna`, before any sorting. -/
def cleanTdRows (rows : List RawRow) : List Row :=
  match rows.filter hasXYZ with
  | [] => []
  | r0 :: rest =>
      (r0 :: rest).map (fun r =>
        { sensorType := r.sensorType, td := r.timestamp - r0.timestamp,
          y := r.y.getD 0 })

/-- `all(data.index[:-1] <= data.index[1:])` (query_utils.py:158). -/
def isSortedTd (l : List Row) : Bool :=
  (l.zip l.tail).all (fun p => decide (p.1.td ≤ p.2.td))

/-- `clean_accelerometer_data` (query_utils.py:138-161): drop incomplete
rows, derive `td` relative to the first remaining row, sort by the time
index, then check sortedness; the check's failure branch is
`sys.exit('Time Series File is not Sorted')`.  An empty frame after
`dropna` makes `date_series.iloc[0]` raise, modelled as the other error
exit. -/
def clean_accelerometer_data (rows : List RawRow) :
    Except String (List Row) :=
  match rows.filter hasXYZ with
  | [] => Except.error "empty time series after dropna"
  | _ :: _ =>
      let sorted := List.insertionSort (fun a b => a.td ≤ b.td)
        (cleanTdRows rows)
      if isSortedTd sorted then Except.ok sorted
      else Except.error "Time Series File is not Sorted"

instance : IsTotal Row (fun (a b : Row) => a.td ≤ b.td) :=
  ⟨fun a b => le_total a.td b.td⟩

instance : IsTrans Row (fun (a b : Row) => a.td ≤ b.td) :=
  ⟨fun _ _ _ h1 h2 => le_trans h1 h2⟩

theorem isSortedTd_of_chain (l : List Row)
    (h : List.Chain' (fun (a b : Row) => a.td ≤ b.td) l) :
    isSortedTd l = true := by
  induction l with
  | nil => rfl
  | cons a t ih =>
      cases t with
      | nil => rfl
      | cons b t2 =>
          rw [isSortedTd]
          simp only [List.tail_cons, List.zip_cons_cons, List.all_cons,
            Bool.and_eq_true, decide_eq_true_eq]
          rcases h with _ | ⟨hab, h2⟩
          exact ⟨hab, ih h2⟩

theorem clean_never_fatal (rows : List RawRow)
    (hne : rows.filter hasXYZ ≠ []) :
    ∃ out, clean_accelerometer_data rows = Except.ok out ∧
      isSortedTd out = true := by
  rw [clean_accelerometer_data]
  split
  · exact absurd (by assumption) hne
  · have hsorted : isSortedTd (List.insertionSort
        (fun a b => a.td ≤ b.td) (cleanTdRows rows)) = true := by
      apply isSortedTd_of_chain
      exact List.Pairwise.chain' (List.sorted_insertionSort _ _)
    rw [if_pos hsorted]
    exact ⟨_, rfl, hsorted⟩

/-- The fixed-key output record of `pipeline`
(new_walking_feature.py:323-336).  The two step-rate features are
`Option ℚ` because `np.mean` of an empty array and a division by a zero
bout duration produce non-finite floats, modelled as `none`. -/
structure FeatureRecord where
  wchunk_mean_steps : Option ℚ
  no_wchunk_mean_steps : Option ℚ
  no_of_turns : ℕ
  mean_duration : ℚ
  min_duration : ℚ
  max_duration : ℚ
deriving DecidableEq, Repr

/-- The rotation feature block (new_walking_feature.py:299 and 326-335):
count and mean/min/max duration of the TurnEvents with `aucXt > 2`, all
zero when none qualifies. -/
def rotationBlock (evs : List TurnEvent) : ℕ × ℚ × ℚ × ℚ :=
  let occ := evs.filter (fun e => decide (2 < e.aucXt))
  if occ.isEmpty then (0, 0, 0, 0)
  else (occ.length,
    qsum (occ.map TurnEvent.turn_duration) / (occ.length : ℚ),
    qminimum (occ.map TurnEvent.turn_duration),
    qmaximum (occ.map TurnEvent.turn_duration))

/-- The feature computation of `pipeline` (new_walking_feature.py:295-336)
on an in-memory frame: split by sensor kind, segment the rotation stream,
overlay, walk the bouts with both step estimators, and assemble the
record.  A bout slice `data.loc[seqs[0]:seqs[-1]]` is the label-inclusive
slice of the reset-index overlay.  The unwindowed estimator divides the
detector's strike count by the bout duration; when the detector raises
the except branch substitutes 0, and a division by a zero duration gives
a non-finite value (`none`). -/
def computeRecord (filt : List ℚ → List ℚ) (det : List ℚ → Option ℕ)
    (rows : List Row) : FeatureRecord :=
  let accel_ts := rows.filter (fun r => r.sensorType == "userAcceleration")
  let rotation_ts := rows.filter (fun r => r.sensorType == "rotationRate")
  let evs := calculate_rotation filt (rotation_ts.map (fun r => (r.td, r.y)))
  let overlay := create_overlay_data accel_ts evs
  let seqs := walkingBouts (overlay.map MergedRow.aucXt)
  let wvals := seqs.map (fun g =>
    calculate_number_of_steps_per_window filt det
      ((sliceIncl overlay (g.headD 0) (g.getLastD 0)).map MergedRow.y))
  let nwvals := seqs.map (fun g =>
    let s := sliceIncl overlay (g.headD 0) (g.getLastD 0)
    let dur := (s.getLastD ⟨0, 0, 0, 0⟩).td - (s.headD ⟨0, 0, 0, 0⟩).td
    match det (s.map MergedRow.y) with
    | none => some (0 : ℚ)
    | some c => if dur = 0 then none else some ((c : ℚ) / dur))
  let rb := rotationBlock evs
  { wchunk_mean_steps := qmean wvals
    no_wchunk_mean_steps := omean nwvals
    no_of_turns := rb.1
    mean_duration := rb.2.1
    min_duration := rb.2.2.1
    max_duration := rb.2.2.2 }

/-- The input of one `pipeline` invocation: either a path string (possibly
the missing-source sentinel) or an already loaded frame. -/
inductive PipelineInput where
  | path (s : String)
  | frame (rows : List Row)

/-- The value `pipeline` hands back: the sentinel string passed through, or
a complete feature record. -/
inductive PipelineOutput where
  | sentinel (s : String)
  | record (r : FeatureRecord)
deriving DecidableEq

/-- `pipeline` (new_walking_feature.py:281-336).  `resolve` stands for
`query.open_filepath`: the parsed rows of the file at a path.  String
inputs equal to the sentinel are returned unchanged before any
computation; other strings are opened and cleaned (cleaning's fatal exits
surface as `Except.error`); frames are processed directly. -/
def pipeline (filt : List ℚ → List ℚ) (det : List ℚ → Option ℕ)
    (resolve : String → List RawRow) :
    PipelineInput → Except String PipelineOutput
  | .path s =>
      if s = "#ERROR" then Except.ok (.sentinel s)
      else
        match clean_accelerometer_data (resolve s) with
        | .error e => .error e
        | .ok data => .ok (.record (computeRecord filt det data))
  | .frame rows => .ok (.record (computeRecord filt det rows))

theorem qsum_nonneg (l : List ℚ) (h : ∀ x ∈ l, 0 ≤ x) : 0 ≤ qsum l := by
  induction l with
  | nil => simp [qsum]
  | cons x xs ih =>
      rw [qsum, List.foldr_cons]
      have hx := h x (List.mem_cons_self _ _)
      have hxs := ih (fun y hy => h y (List.mem_cons_of_mem _ hy))
      rw [qsum] at hxs
      positivity

theorem qminimum_mem (l : List ℚ) (h : l ≠ []) : qminimum l ∈ l := by
  match l with
  | x :: xs =>
      rw [qminimum]
      clear h
      induction xs generalizing x with
      | nil => simp
      | cons y ys ih =>
          rw [List.foldl_cons]
          rcases List.mem_cons.mp (ih (min x y)) with h | h
          · rw [h]
            rcases min_cases x y with ⟨he, -⟩ | ⟨he, -⟩
            · rw [he]
              exact List.mem_cons_self _ _
            · rw [he]
              exact List.mem_cons_of_mem _ (List.mem_cons_self _ _)
          · exact List.mem_cons_of_mem _ (List.mem_cons_of_mem _ h)

theorem qmaximum_mem (l : List ℚ) (h : l ≠ []) : qmaximum l ∈ l := by
  match l with
  | x :: xs =>
      rw [qmaximum]
      clear h
      induction xs generalizing x with
      | nil => simp
      | cons y ys ih =>
          rw [List.foldl_cons]
          rcases List.mem_cons.mp (ih (max x y)) with h | h
          · rw [h]
            rcases max_cases x y with ⟨he, -⟩ | ⟨he, -⟩
            · rw [he]
              exact List.mem_cons_self _ _
            · rw [he]
              exact List.mem_cons_of_mem _ (List.mem_cons_self _ _)
          · exact List.mem_cons_of_mem _ (List.mem_cons_of_mem _ h)

theorem calcSteps_nonneg (filt : List ℚ → List ℚ)
    (det : List ℚ → Option ℕ) (ys : List ℚ) :
    0 ≤ calculate_number_of_steps_per_window filt det ys := by
  rw [calculate_number_of_steps_per_window]
  by_cases h : (subset_data_non_zero_runs (windowObs filt det ys) 5).length
      = 0
  · rw [if_pos h]
  · rw [if_neg h]
    apply div_nonneg
    · apply qsum_nonneg
      intro x hx
      obtain ⟨row, hrow, rfl⟩ := List.mem_map.mp hx
      have hrow2 : row ∈ windowObs filt det ys := by
        apply List.Sublist.subset _ hrow
        rw [subset_data_non_zero_runs]
        exact enumFrom_filter_map_sublist _ _ 0
      obtain ⟨j, -, rfl⟩ := List.mem_map.mp hrow2
      simp only
      apply div_nonneg
      · by_cases hv : varQ (((filt ys).drop (j - 256)).take 256) < 1 / 100
        · rw [if_pos hv]
        · rw [if_neg hv]
          positivity
      · norm_num
    · positivity

theorem length_sliceIncl (l : List α) (a b : ℕ) :
    (sliceIncl l a b).length = min (b + 1 - a) (l.length - a) := by
  simp [sliceIncl]

theorem sliceIncl_sublist (l : List α) (a b : ℕ) :
    (sliceIncl l a b).Sublist l :=
  List.Sublist.trans (List.take_sublist _ _) (List.drop_sublist _ _)

theorem events_td_mem (tds ys : List ℚ) (hlen : tds.length = ys.length) :
    ∀ (c : List ℕ) (s0 : ℕ), ∀ e ∈ calcRotAux tds ys c s0, e.td ∈ tds := by
  intro c
  induction c with
  | nil => intro s0 e he; simp [calcRotAux] at he
  | cons i rest ih =>
      intro s0 e he
      rw [calcRotAux] at he
      by_cases h : 2 ≤ (sliceIncl ys s0 i).length
      · rw [if_pos h] at he
        rcases List.mem_cons.mp he with rfl | he
        · have hx : (sliceIncl tds s0 i).length =
              (sliceIncl ys s0 i).length := by
            rw [length_sliceIncl, length_sliceIncl, hlen]
          have hne : sliceIncl tds s0 i ≠ [] := by
            rw [← List.length_pos_iff_ne_nil]
            omega
          simp only
          rw [List.getLastD_eq_getLast? , List.getLast?_eq_getLast _ hne]
          exact List.Sublist.subset (sliceIncl_sublist tds s0 i)
            (List.getLast_mem hne)
        · exact ih (i + 1) e he
      · rw [if_neg h] at he
        exact ih (i + 1) e he

theorem sorted_getD_mono (l : List ℚ) (hs : List.Pairwise (· ≤ ·) l)
    (a b : ℕ) (hab : a ≤ b) (hb : b < l.length) :
    l.getD a 0 ≤ l.getD b 0 := by
  rcases Nat.lt_or_ge a b with h | h
  · rw [List.getD_eq_getElem _ _ (by omega), List.getD_eq_getElem _ _ hb]
    exact List.pairwise_iff_getElem.mp hs a b (by omega) hb h
  · have : a = b := by omega
    subst this
    exact le_refl _

theorem events_dur_nonneg (tds ys : List ℚ)
    (hs : List.Pairwise (· ≤ ·) tds) :
    ∀ (c : List ℕ), List.Pairwise (· < ·) c →
      (∀ j ∈ c, j + 1 < tds.length) → ∀ (s0 : ℕ), (∀ j ∈ c, s0 ≤ j) →
      ∀ e ∈ calcRotAux tds ys c s0, 0 ≤ e.turn_duration := by
  intro c
  induction c with
  | nil => intro _ _ s0 _ e he; simp [calcRotAux] at he
  | cons i rest ih =>
      intro hpair hrange s0 hs0 e he
      rw [calcRotAux] at he
      have hdur : 0 ≤ tds.getD (i + 1) 0 - tds.getD s0 0 := by
        have h1 : s0 ≤ i + 1 :=
          le_trans (hs0 i (List.mem_cons_self _ _)) (Nat.le_succ _)
        have h2 : i + 1 < tds.length := hrange i (List.mem_cons_self _ _)
        exact sub_nonneg.mpr (sorted_getD_mono tds hs s0 (i + 1) h1 h2)

      have hrec : ∀ e ∈ calcRotAux tds ys rest (i + 1),
          0 ≤ e.turn_duration := by
        apply ih (List.Pairwise.sublist (List.sublist_cons_self _ _) hpair)
          (fun j hj => hrange j (List.mem_cons_of_mem _ hj)) (i + 1)
        intro j hj
        have := List.rel_of_pairwise_cons hpair hj
        omega
      by_cases h : 2 ≤ (sliceIncl ys s0 i).length
      · rw [if_pos h] at he
        rcases List.mem_cons.mp he with rfl | he
        · simpa using hdur
        · exact hrec e he
      · rw [if_neg h] at he
        exact hrec e he

theorem rotationBlock_nonneg (evs : List TurnEvent)
    (h : ∀ e ∈ evs, 0 ≤ e.turn_duration) :
    0 ≤ (rotationBlock evs).2.1 ∧ 0 ≤ (rotationBlock evs).2.2.1 ∧
      0 ≤ (rotationBlock evs).2.2.2 := by
  rw [rotationBlock]
  by_cases he : (evs.filter (fun e => decide (2 < e.aucXt))).isEmpty
  · rw [if_pos he]
    norm_num
  · rw [if_neg he]
    have hne : evs.filter (fun e => decide (2 < e.aucXt)) ≠ [] := by
      simpa [List.isEmpty_iff] using he
    have hdur : ∀ x ∈ (evs.filter (fun e => decide (2 < e.aucXt))).map
        TurnEvent.turn_duration, 0 ≤ x := by
      intro x hx
      obtain ⟨e, he2, rfl⟩ := List.mem_map.mp hx
      exact h e (List.mem_of_mem_filter he2)
    refine ⟨?_, ?_, ?_⟩
    · apply div_nonneg (qsum_nonneg _ hdur)
      positivity
    · apply hdur
      apply qminimum_mem
      simpa using hne
    · apply hdur
      apply qmaximum_mem
      simpa using hne

theorem mergeLeft_nomatch (accel : List Row) (evs : List TurnEvent)
    (h : ∀ r ∈ accel, ∀ e ∈ evs, e.td ≠ r.td) :
    mergeLeft accel evs = accel.map (fun r => (r, none)) := by
  induction accel with
  | nil => rfl
  | cons r rest ih =>
      rw [mergeLeft, List.flatMap_cons]
      have hfil : evs.filter (fun e => e.td == r.td) = [] := by
        rw [List.filter_eq_nil_iff]
        intro e he
        simp only [beq_iff_eq]
        exact h r (List.mem_cons_self _ _) e he
      rw [hfil]
      rw [List.map_cons, ← ih (fun r2 hr2 e he =>
        h r2 (List.mem_cons_of_mem _ hr2) e he), mergeLeft]
      rfl

theorem bfill_replicate_none (n : ℕ) :
    bfill (List.replicate n (none : Option ℚ)) =
      List.replicate n (none : Option ℚ) := by
  induction n with
  | zero => rfl
  | succ n ih =>
      rw [List.replicate_succ, bfill, ih]
      cases n with
      | zero => rfl
      | succ m =>
          rw [List.replicate_succ]
          rfl

theorem overlay_nomatch (accel : List Row) (evs : List TurnEvent)
    (h : ∀ r ∈ accel, ∀ e ∈ evs, e.td ≠ r.td) :
    create_overlay_data accel evs =
      accel.map (fun r =>
        { td := r.td, y := r.y, aucXt := 0, turn_duration := 0 }) := by
  rw [create_overlay_data, mergeLeft_nomatch accel evs h]
  have hm : ∀ (f : TurnEvent → ℚ),
      (accel.map (fun r => ((r, none) : Row × Option TurnEvent))).map
        (fun p => p.2.map f) = List.replicate accel.length none := by
    intro f
    rw [List.map_map]
    have : ((fun p : Row × Option TurnEvent => p.2.map f) ∘
        (fun r => (r, none))) = fun _ => none := by
      funext r
      rfl
    rw [this, List.map_const']
  rw [hm TurnEvent.aucXt, hm TurnEvent.turn_duration, bfill_replicate_none,
    List.map_replicate]
  apply List.ext_getElem
  · simp
  · intro i h1 h2
    simp [List.getElem_zip]

theorem chainRun_full_range (m a : ℕ) :
    chainRun a (List.range' (a + 1) m) = (List.range' (a + 1) m, []) := by
  induction m generalizing a with
  | zero => rfl
  | succ n ih =>
      rw [List.range'_succ, chainRun, if_pos rfl, ih (a + 1)]

theorem sas_single_run (a k : ℕ) :
    separate_array_sequence (List.range' a (k + 1)) =
      [List.range' a (k + 1)] := by
  rw [List.range'_succ, separate_array_sequence, chainRun_full_range]
  rw [separate_array_sequence]

theorem getLastD_range' : ∀ (k a d : ℕ),
    (List.range' a (k + 1)).getLastD d = a + k := by
  intro k
  induction k with
  | zero => intro a d; rfl
  | succ n ih =>
      intro a d
      rw [List.range'_succ, List.getLastD_cons, ih (a + 1) a]
      omega

theorem map_getLastD (l : List α) (f : α → β) (d : β) (h : l ≠ []) :
    (l.map f).getLastD d = f (l.getLast h) := by
  rw [List.getLastD_eq_getLast?, List.getLast?_map,
    List.getLast?_eq_getLast _ h]
  rfl

theorem qmean_singleton (v : ℚ) : qmean [v] = some v := by
  simp [qmean, qsum]

theorem omean_singleton (v : ℚ) : omean [some v] = some v := by
  simp [omean, qsum]

end MPower

/-- C2 (amended): for every filtered rotation series, each interval between
consecutive zero-crossing boundaries (including the initial interval) with
at least 2 samples yields a TurnEvent whose td marker is the td of the last
sample of the interval, whose duration is the td of the sample one past the
interval (index crossing+1) minus the td of the interval's first sample,
and whose aucXt is |trapezoidal AUC of the sub-series| times that duration;
intervals with fewer than 2 samples yield no event. -/
theorem C2_rotation_segmentation (tds ys : List ℚ) :
    MPower.rotationEvents tds ys = MPower.rotationEventsSpec tds ys := by
  unfold MPower.rotationEvents MPower.rotationEventsSpec
  exact MPower.calcRotAux_zip_spec tds ys (MPower.detect_zcr ys) 0

/-- C2 counterexample: on td column [0,1,5] with filtered rotation values
[1,1,-1] there is one crossing at index 1; the emitted event has duration
td[2]-td[0] = 5 (one sample past the sub-series), not the claimed
td[1]-td[0] = 1 over the taken sub-series, so the event list differs from
the claimed one. -/
theorem C2_duration_counterexample :
    MPower.rotationEvents [0, 1, 5] [1, 1, -1] ≠
      MPower.rotationEventsClaimed [0, 1, 5] [1, 1, -1] ∧
    (MPower.rotationEvents [0, 1, 5] [1, 1, -1]).map
        MPower.TurnEvent.turn_duration = [5] ∧
    (MPower.rotationEventsClaimed [0, 1, 5] [1, 1, -1]).map
        MPower.TurnEvent.turn_duration = [1] := by
  refine ⟨?_, ?_, ?_⟩ <;>
    norm_num [MPower.rotationEvents, MPower.rotationEventsClaimed,
      MPower.calcRotAux, MPower.detect_zcr, MPower.qsign, MPower.qabs,
      MPower.trapzQ, MPower.sliceIncl, List.range_succ,
      List.filterMap_cons, List.zip_cons_cons]

/-- C3 (amended): after the left outer join on td, each aucXt and
turn_duration entry of the overlay equals the nearest following known
value at that position, defaulted to zero when none exists, so no missing
value remains; the entries still missing after the backward fill are the
trailing ones (every position at or after them is unknown), not the
leading ones. -/
theorem C3_overlay_backfill (accel : List MPower.Row)
    (evs : List MPower.TurnEvent) :
    ((MPower.create_overlay_data accel evs).map MPower.MergedRow.aucXt =
      (List.range (MPower.mergeLeft accel evs).length).map (fun i =>
        ((((MPower.mergeLeft accel evs).map
          (fun p => p.2.map MPower.TurnEvent.aucXt)).drop i).findSome?
            id).getD 0)) ∧
    ((MPower.create_overlay_data accel evs).map
        MPower.MergedRow.turn_duration =
      (List.range (MPower.mergeLeft accel evs).length).map (fun i =>
        ((((MPower.mergeLeft accel evs).map
          (fun p => p.2.map MPower.TurnEvent.turn_duration)).drop i).findSome?
            id).getD 0)) ∧
    (∀ i j, (MPower.bfill ((MPower.mergeLeft accel evs).map
        (fun p => p.2.map MPower.TurnEvent.aucXt))).getD i none = none →
      i ≤ j →
      ((MPower.mergeLeft accel evs).map
        (fun p => p.2.map MPower.TurnEvent.aucXt)).getD j none = none) ∧
    (∀ i j, (MPower.bfill ((MPower.mergeLeft accel evs).map
        (fun p => p.2.map MPower.TurnEvent.turn_duration))).getD i none =
          none →
      i ≤ j →
      ((MPower.mergeLeft accel evs).map
        (fun p => p.2.map MPower.TurnEvent.turn_duration)).getD j none =
          none) := by
  refine ⟨?_, ?_, ?_, ?_⟩
  · rw [MPower.overlay_aucXt_col, MPower.bfill_map_getD]
    simp
  · rw [MPower.overlay_dur_col, MPower.bfill_map_getD]
    simp
  · intro i j h hij
    exact MPower.bfill_none_trailing _ i j h hij
  · intro i j h hij
    exact MPower.bfill_none_trailing _ i j h hij

/-- C3 witness: the amended statement instantiated at a concrete overlay
(three acceleration rows at td 0,1,2 and a single TurnEvent at td 0). -/
theorem C3_overlay_backfill_witness :
    ((MPower.create_overlay_data
        [⟨"userAcceleration", 0, 0⟩, ⟨"userAcceleration", 1, 0⟩,
          ⟨"userAcceleration", 2, 0⟩] [⟨0, 7, 3, 7⟩]).map
        MPower.MergedRow.aucXt =
      (List.range (MPower.mergeLeft
          [⟨"userAcceleration", 0, 0⟩, ⟨"userAcceleration", 1, 0⟩,
            ⟨"userAcceleration", 2, 0⟩] [⟨0, 7, 3, 7⟩]).length).map (fun i =>
        ((((MPower.mergeLeft
            [⟨"userAcceleration", 0, 0⟩, ⟨"userAcceleration", 1, 0⟩,
              ⟨"userAcceleration", 2, 0⟩] [⟨0, 7, 3, 7⟩]).map
          (fun p => p.2.map MPower.TurnEvent.aucXt)).drop i).findSome?
            id).getD 0)) ∧
    ((MPower.create_overlay_data
        [⟨"userAcceleration", 0, 0⟩, ⟨"userAcceleration", 1, 0⟩,
          ⟨"userAcceleration", 2, 0⟩] [⟨0, 7, 3, 7⟩]).map
        MPower.MergedRow.turn_duration =
      (List.range (MPower.mergeLeft
          [⟨"userAcceleration", 0, 0⟩, ⟨"userAcceleration", 1, 0⟩,
            ⟨"userAcceleration", 2, 0⟩] [⟨0, 7, 3, 7⟩]).length).map (fun i =>
        ((((MPower.mergeLeft
            [⟨"userAcceleration", 0, 0⟩, ⟨"userAcceleration", 1, 0⟩,
              ⟨"userAcceleration", 2, 0⟩] [⟨0, 7, 3, 7⟩]).map
          (fun p => p.2.map MPower.TurnEvent.turn_duration)).drop
            i).findSome? id).getD 0)) ∧
    (∀ i j, (MPower.bfill ((MPower.mergeLeft
        [⟨"userAcceleration", 0, 0⟩, ⟨"userAcceleration", 1, 0⟩,
          ⟨"userAcceleration", 2, 0⟩] [⟨0, 7, 3, 7⟩]).map
        (fun p => p.2.map MPower.TurnEvent.aucXt))).getD i none = none →
      i ≤ j →
      ((MPower.mergeLeft
        [⟨"userAcceleration", 0, 0⟩, ⟨"userAcceleration", 1, 0⟩,
          ⟨"userAcceleration", 2, 0⟩] [⟨0, 7, 3, 7⟩]).map
        (fun p => p.2.map MPower.TurnEvent.aucXt)).getD j none = none) ∧
    (∀ i j, (MPower.bfill ((MPower.mergeLeft
        [⟨"userAcceleration", 0, 0⟩, ⟨"userAcceleration", 1, 0⟩,
          ⟨"userAcceleration", 2, 0⟩] [⟨0, 7, 3, 7⟩]).map
        (fun p => p.2.map MPower.TurnEvent.turn_duration))).getD i none =
          none →
      i ≤ j →
      ((MPower.mergeLeft
        [⟨"userAcceleration", 0, 0⟩, ⟨"userAcceleration", 1, 0⟩,
          ⟨"userAcceleration", 2, 0⟩] [⟨0, 7, 3, 7⟩]).map
        (fun p => p.2.map MPower.TurnEvent.turn_duration)).getD j none =
          none) :=
  C3_overlay_backfill
    [⟨"userAcceleration", 0, 0⟩, ⟨"userAcceleration", 1, 0⟩,
      ⟨"userAcceleration", 2, 0⟩] [⟨0, 7, 3, 7⟩]

/-- C3 counterexample: with acceleration rows at td 0,1,2 and one
TurnEvent at td 0, the merged aucXt column is [some 7, none, none]; after
the backward fill position 1 is still missing although position 0 before
it is known, so the still-missing values are trailing values, not the
leading values the claim describes; the zero fill then yields [7, 0, 0]. -/
theorem C3_leading_counterexample :
    (MPower.bfill ((MPower.mergeLeft
        [⟨"userAcceleration", 0, 0⟩, ⟨"userAcceleration", 1, 0⟩,
          ⟨"userAcceleration", 2, 0⟩] [⟨0, 7, 3, 7⟩]).map
        (fun p => p.2.map MPower.TurnEvent.aucXt))).getD 1 none = none ∧
    ((MPower.mergeLeft
        [⟨"userAcceleration", 0, 0⟩, ⟨"userAcceleration", 1, 0⟩,
          ⟨"userAcceleration", 2, 0⟩] [⟨0, 7, 3, 7⟩]).map
        (fun p => p.2.map MPower.TurnEvent.aucXt)).getD 0 none = some 7 ∧
    (MPower.create_overlay_data
        [⟨"userAcceleration", 0, 0⟩, ⟨"userAcceleration", 1, 0⟩,
          ⟨"userAcceleration", 2, 0⟩] [⟨0, 7, 3, 7⟩]).map
        MPower.MergedRow.aucXt = [7, 0, 0] := by
  refine ⟨?_, ?_, ?_⟩ <;>
    norm_num [MPower.mergeLeft, MPower.bfill, MPower.create_overlay_data,
      MPower.TurnEvent.aucXt, List.filter_cons, List.filter_nil, beq_iff_eq]

/-- C4: on every merged timeline, each index is either turning
(aucXt ≥ 2, equivalently not < 2) and lies in no walking bout, or walking
(aucXt < 2) and lies in at least one bout; the bouts are pairwise
disjoint, and every bout is a maximal run of consecutive walking indices
(it is a consecutive integer interval of walking indices whose two
neighbours are outside the timeline or turning).  Together: every index
belongs to exactly one of the turning set and a single bout. -/
theorem C4_timeline_partition (v : List ℚ) :
    (∀ i, i < v.length →
      (v.getD i 0 < 2 ↔ ∃ g ∈ MPower.walkingBouts v, i ∈ g)) ∧
    (MPower.walkingBouts v).Pairwise (fun g1 g2 => ∀ i, i ∈ g1 → i ∉ g2) ∧
    (∀ g ∈ MPower.walkingBouts v, ∃ a k, g = List.range' a k ∧ 0 < k ∧
      (∀ m ∈ g, m < v.length ∧ v.getD m 0 < 2) ∧
      (a = 0 ∨ ¬ v.getD (a - 1) 0 < 2) ∧
      (a + k = v.length ∨ ¬ v.getD (a + k) 0 < 2)) := by
  refine ⟨?_, ?_, ?_⟩
  · intro i hi
    constructor
    · intro hlt
      have hmem : i ∈ MPower.walkingIndices v :=
        (MPower.mem_walkingIndices v i).mpr ⟨hi, hlt⟩
      rw [← MPower.sas_flatten (MPower.walkingIndices v)] at hmem
      exact List.mem_flatten.mp hmem
    · intro ⟨g, hg, hig⟩
      have hmem : i ∈ MPower.walkingIndices v := by
        rw [← MPower.sas_flatten (MPower.walkingIndices v)]
        exact List.mem_flatten.mpr ⟨g, hg, hig⟩
      exact ((MPower.mem_walkingIndices v i).mp hmem).2
  · apply MPower.pairwise_disjoint_of_count_sum
    intro i
    rw [MPower.walkingBouts, MPower.sas_count_sum]
    exact List.nodup_iff_count_le_one.mp (MPower.walkingIndices_nodup v) i
  · intro g hg
    obtain ⟨a, k, hga, hk, hmem, hleft, hright⟩ :=
      MPower.sas_maximal (MPower.walkingIndices v)
        (MPower.walkingIndices_sorted v) g hg
    have ha : a ∈ MPower.walkingIndices v := by
      apply hmem
      rw [hga, List.mem_range'_1]
      omega
    have halast : a + k - 1 ∈ MPower.walkingIndices v := by
      apply hmem
      rw [hga, List.mem_range'_1]
      omega
    refine ⟨a, k, hga, hk, ?_, ?_, ?_⟩
    · intro m hm
      exact (MPower.mem_walkingIndices v m).mp (hmem m hm)
    · rcases hleft with h0 | hnot
      · exact Or.inl h0
      · by_cases ha0 : a = 0
        · exact Or.inl ha0
        · refine Or.inr ?_
          intro hlt
          apply hnot
          rw [MPower.mem_walkingIndices]
          have := (MPower.mem_walkingIndices v a).mp ha
          exact ⟨by omega, hlt⟩
    · by_cases hak : a + k = v.length
      · exact Or.inl hak
      · refine Or.inr ?_
        intro hlt
        apply hright
        rw [MPower.mem_walkingIndices]
        have := (MPower.mem_walkingIndices v (a + k - 1)).mp halast
        exact ⟨by omega, hlt⟩

/-- C4 witness: the partition statement instantiated at the concrete
merged aucXt column [0, 3, 1, 1, 5]. -/
theorem C4_timeline_partition_witness :
    (∀ i, i < ([0, 3, 1, 1, 5] : List ℚ).length →
      (([0, 3, 1, 1, 5] : List ℚ).getD i 0 < 2 ↔
        ∃ g ∈ MPower.walkingBouts [0, 3, 1, 1, 5], i ∈ g)) ∧
    (MPower.walkingBouts [0, 3, 1, 1, 5]).Pairwise
      (fun g1 g2 => ∀ i, i ∈ g1 → i ∉ g2) ∧
    (∀ g ∈ MPower.walkingBouts [0, 3, 1, 1, 5], ∃ a k,
      g = List.range' a k ∧ 0 < k ∧
      (∀ m ∈ g, m < ([0, 3, 1, 1, 5] : List ℚ).length ∧
        ([0, 3, 1, 1, 5] : List ℚ).getD m 0 < 2) ∧
      (a = 0 ∨ ¬ ([0, 3, 1, 1, 5] : List ℚ).getD (a - 1) 0 < 2) ∧
      (a + k = ([0, 3, 1, 1, 5] : List ℚ).length ∨
        ¬ ([0, 3, 1, 1, 5] : List ℚ).getD (a + k) 0 < 2)) :=
  C4_timeline_partition [0, 3, 1, 1, 5]

/-- C6: zero-run filtering removes exactly the windows lying in a maximal
run of consecutive zero-rate windows of length at least 5 (the whole run);
windows in shorter zero runs and nonzero-rate windows are kept; the bout's
windowed estimate is 0 when the remaining sequence is empty and the
arithmetic mean of the remaining windows' rates otherwise. -/
theorem C6_zero_run_filtering :
    (∀ (rates : List ℚ) (i : ℕ),
      MPower.removedIdx rates 5 i = true ↔
        MPower.inBigZeroRun rates 5 i) ∧
    (∀ (filt : List ℚ → List ℚ) (det : List ℚ → Option ℕ) (ys : List ℚ),
      MPower.calculate_number_of_steps_per_window filt det ys =
        (let obs := MPower.windowObs filt det ys
         let kept := (obs.enum.filter (fun q =>
           ! decide (MPower.inBigZeroRun
             (obs.map MPower.WRow.heel_strikes) 5 q.1))).map Prod.snd
         if kept.length = 0 then 0
         else MPower.qsum (kept.map MPower.WRow.heel_strikes) /
           (kept.length : ℚ))) := by
  constructor
  · exact fun rates i => MPower.removedIdx_iff rates 5 i
  · intro filt det ys
    have hpred : ∀ i, MPower.removedIdx
        ((MPower.windowObs filt det ys).map MPower.WRow.heel_strikes) 5 i =
        decide (MPower.inBigZeroRun ((MPower.windowObs filt det ys).map
          MPower.WRow.heel_strikes) 5 i) := by
      intro i
      rw [Bool.eq_iff_iff, MPower.removedIdx_iff, decide_eq_true_eq]
    rw [MPower.calculate_number_of_steps_per_window,
      MPower.subset_data_non_zero_runs]
    rw [List.filter_congr (fun q _ => by rw [hpred q.1])]

/-- C9: a bout with fewer than 256 samples produces no 256-sample window at
all, and its windowed estimate is exactly 0, with no error and no NaN. -/
theorem C9_short_bout (filt : List ℚ → List ℚ) (det : List ℚ → Option ℕ)
    (ys : List ℚ) (h : ys.length < 256) :
    MPower.windowPositions ys.length = [] ∧
    MPower.calculate_number_of_steps_per_window filt det ys = 0 := by
  have hpos : MPower.windowPositions ys.length = [] := by
    rw [MPower.windowPositions, if_pos (by omega)]
    exact List.range'_zero
  refine ⟨hpos, ?_⟩
  rw [MPower.calculate_number_of_steps_per_window]
  simp [MPower.windowObs, hpos, MPower.subset_data_non_zero_runs]

/-- C9 witness: a three-sample bout yields no window and estimate 0. -/
theorem C9_short_bout_witness :
    MPower.windowPositions ([1, 2, 3] : List ℚ).length = [] ∧
    MPower.calculate_number_of_steps_per_window id (fun _ => none)
      [1, 2, 3] = 0 :=
  C9_short_bout id (fun _ => none) [1, 2, 3] (by norm_num)

/-- C10: subset_data_non_zero_runs only deletes rows, keeping the
surviving rows in their original relative order (the result is a sublist
of the input), and every row with a nonzero heel-strike rate survives
(the nonzero rows form a sublist of the result). -/
theorem C10_subset_only_zero_rows (data : List MPower.WRow) (cutoff : ℕ) :
    (MPower.subset_data_non_zero_runs data cutoff).Sublist data ∧
    (data.filter (fun r => decide (r.heel_strikes ≠ 0))).Sublist
      (MPower.subset_data_non_zero_runs data cutoff) := by
  constructor
  · rw [MPower.subset_data_non_zero_runs]
    exact MPower.enumFrom_filter_map_sublist _ data 0
  · rw [← MPower.enumFrom_filter_map_snd
      (fun r => decide (r.heel_strikes ≠ 0)) data 0]
    rw [MPower.subset_data_non_zero_runs]
    apply List.Sublist.map
    have hcongr : ∀ q ∈ List.enumFrom 0 data,
        (decide (q.2.heel_strikes ≠ 0)) =
          ((decide (q.2.heel_strikes ≠ 0)) &&
            (! MPower.removedIdx (data.map MPower.WRow.heel_strikes)
              cutoff q.1)) := by
      intro q hq
      rcases hd : decide (q.2.heel_strikes ≠ 0) with _ | _
      · simp
      · have hne : q.2.heel_strikes ≠ 0 := of_decide_eq_true hd
        rcases hr : MPower.removedIdx (data.map MPower.WRow.heel_strikes)
            cutoff q.1 with _ | _
        · simp
        · exfalso
          obtain ⟨hlt, hz, -⟩ := (MPower.removedIdx_iff _ cutoff q.1).mp hr
          obtain ⟨-, hqlt, hqv⟩ := List.mem_enumFrom hq
          apply hne
          rw [List.length_map] at hlt
          rw [List.getD_eq_getElem _ _ (by simpa using hlt),
            List.getElem_map] at hz
          rw [← hz, hqv]
          simp
    rw [List.filter_congr hcongr]
    exact List.monotone_filter_right _ (fun a ha =>
      ((Bool.and_eq_true _ _).mp ha).2)

/-- C5 (amended): cleaning sorts the stream by its time index before the
sortedness check, so the check always passes: for every input with at
least one complete sample row, cleaning returns successfully with a
sorted stream.  An unsorted stream is silently repaired, never fatal; the
sorted-check failure branch is unreachable. -/
theorem C5_cleaning_repairs (rows : List MPower.RawRow)
    (hne : rows.filter MPower.hasXYZ ≠ []) :
    ∃ out, MPower.clean_accelerometer_data rows = Except.ok out ∧
      MPower.isSortedTd out = true :=
  MPower.clean_never_fatal rows hne

/-- C5 witness: cleaning an out-of-order two-row stream succeeds with a
sorted output. -/
theorem C5_cleaning_repairs_witness :
    ∃ out, MPower.clean_accelerometer_data
        [⟨5, some 0, some 0, some 0, "userAcceleration"⟩,
         ⟨0, some 0, some 0, some 0, "userAcceleration"⟩] =
        Except.ok out ∧ MPower.isSortedTd out = true :=
  C5_cleaning_repairs
    [⟨5, some 0, some 0, some 0, "userAcceleration"⟩,
     ⟨0, some 0, some 0, some 0, "userAcceleration"⟩]
    (by simp [MPower.hasXYZ, List.filter])

/-- C5 counterexample: a stream whose derived td series is decreasing
(so the non-decreasing-td invariant is violated) is not fatal: cleaning
sorts it and returns successfully, with the sorted rows. -/
theorem C5_unsorted_not_fatal :
    MPower.isSortedTd (MPower.cleanTdRows
      [⟨5, some 0, some 0, some 0, "userAcceleration"⟩,
       ⟨0, some 0, some 0, some 0, "userAcceleration"⟩]) = false ∧
    MPower.clean_accelerometer_data
      [⟨5, some 0, some 0, some 0, "userAcceleration"⟩,
       ⟨0, some 0, some 0, some 0, "userAcceleration"⟩] =
      Except.ok [⟨"userAcceleration", -5, 0⟩, ⟨"userAcceleration", 0, 0⟩] := by
  constructor
  · norm_num [MPower.cleanTdRows, MPower.hasXYZ, MPower.isSortedTd,
      List.filter]
  · norm_num [MPower.clean_accelerometer_data, MPower.cleanTdRows,
      MPower.hasXYZ, MPower.isSortedTd, List.filter,
      List.insertionSort, List.orderedInsert]

/-- C1 (amended): the sentinel input is passed through unchanged with no
computation and no error; every loaded-frame input yields a
FeatureRecord; a non-sentinel path input yields a FeatureRecord whenever
the resolved file has at least one complete sample row — never the
sentinel. -/
theorem C1_sentinel_passthrough (filt : List ℚ → List ℚ)
    (det : List ℚ → Option ℕ) (resolve : String → List MPower.RawRow) :
    MPower.pipeline filt det resolve (.path "#ERROR") =
      Except.ok (.sentinel "#ERROR") ∧
    (∀ rows, MPower.pipeline filt det resolve (.frame rows) =
      Except.ok (.record (MPower.computeRecord filt det rows))) ∧
    (∀ s, s ≠ "#ERROR" → (resolve s).filter MPower.hasXYZ ≠ [] →
      ∃ r, MPower.pipeline filt det resolve (.path s) =
        Except.ok (.record r)) := by
  refine ⟨by simp [MPower.pipeline], fun rows => rfl, ?_⟩
  intro s hs hne
  obtain ⟨out, hout, -⟩ := MPower.clean_never_fatal (resolve s) hne
  refine ⟨MPower.computeRecord filt det out, ?_⟩
  simp only [MPower.pipeline, if_neg hs]
  rw [hout]

/-- C1 counterexample: a non-sentinel path whose file parses to an empty
row list does not produce a FeatureRecord — cleaning aborts on the empty
frame (`date_series.iloc[0]` raises), so the claim that every non-sentinel
input returns a FeatureRecord fails. -/
theorem C1_empty_file_counterexample :
    MPower.pipeline id (fun _ => none) (fun _ => []) (.path "f.json") =
      Except.error "empty time series after dropna" := by
  simp [MPower.pipeline, MPower.clean_accelerometer_data]

/-- C8: the rotation feature block is computed from exactly the TurnEvents
with aucXt strictly above 2: the pipeline's four rotation features equal
the block of the segmented rotation stream; the block's count is always
the number of qualifying events; with no qualifying event the block is
all zeros; and on aucXt values [5, 1/2] exactly the first event
qualifies, so the count is 1 and mean/min/max duration all equal that
event's duration. -/
theorem C8_qualifying_turns :
    (∀ (filt : List ℚ → List ℚ) (det : List ℚ → Option ℕ)
        (rows : List MPower.Row),
      ((MPower.computeRecord filt det rows).no_of_turns,
        (MPower.computeRecord filt det rows).mean_duration,
        (MPower.computeRecord filt det rows).min_duration,
        (MPower.computeRecord filt det rows).max_duration) =
        MPower.rotationBlock (MPower.calculate_rotation filt
          ((rows.filter (fun r => r.sensorType == "rotationRate")).map
            (fun r => (r.td, r.y))))) ∧
    (∀ evs : List MPower.TurnEvent, (MPower.rotationBlock evs).1 =
      (evs.filter (fun e => decide (2 < e.aucXt))).length) ∧
    (∀ evs : List MPower.TurnEvent,
      evs.filter (fun e => decide (2 < e.aucXt)) = [] →
      MPower.rotationBlock evs = (0, 0, 0, 0)) ∧
    (∀ t1 a1 d1 t2 a2 d2 : ℚ,
      MPower.rotationBlock [⟨t1, a1, d1, 5⟩, ⟨t2, a2, d2, 1/2⟩] =
        (1, d1, d1, d1)) := by
  refine ⟨fun filt det rows => rfl, ?_, ?_, ?_⟩
  · intro evs
    rw [MPower.rotationBlock]
    by_cases h : (evs.filter (fun e => decide (2 < e.aucXt))).isEmpty
    · rw [if_pos h]
      simp only [List.isEmpty_iff] at h
      simp [h]
    · rw [if_neg h]
  · intro evs h
    rw [MPower.rotationBlock, h]
    rfl
  · intro t1 a1 d1 t2 a2 d2
    have hfilter : ([⟨t1, a1, d1, 5⟩, ⟨t2, a2, d2, 1/2⟩] :
        List MPower.TurnEvent).filter (fun e => decide (2 < e.aucXt)) =
        [⟨t1, a1, d1, 5⟩] := by
      norm_num [List.filter]
    rw [MPower.rotationBlock]
    simp only [hfilter]
    norm_num [MPower.qsum, MPower.qminimum, MPower.qmaximum]

/-- C8 witness: the no-qualifying case and the [5, 1/2] scenario at
concrete events. -/
theorem C8_qualifying_turns_witness :
    MPower.rotationBlock ([] : List MPower.TurnEvent) = (0, 0, 0, 0) ∧
    MPower.rotationBlock [⟨0, 1, 3, 5⟩, ⟨1, 1, 2, 1/2⟩] = (1, 3, 3, 3) :=
  ⟨C8_qualifying_turns.2.2.1 [] rfl,
   C8_qualifying_turns.2.2.2 0 1 3 1 1 2⟩

/-- C7 counterexample: a schema-valid stream with strictly increasing td
that contains only rotationRate samples and no userAcceleration samples
produces an empty merged timeline, so the walking-bout list is empty and
the windowed step-rate feature is `np.mean` of an empty array — NaN, not
a finite non-negative number. -/
theorem C7_rotation_only_counterexample :
    List.Pairwise (· < ·)
      (([⟨"rotationRate", 0, 1⟩, ⟨"rotationRate", 1, 1⟩,
         ⟨"rotationRate", 2, -1⟩] : List MPower.Row).map MPower.Row.td) ∧
    (MPower.computeRecord id (fun _ => none)
      [⟨"rotationRate", 0, 1⟩, ⟨"rotationRate", 1, 1⟩,
       ⟨"rotationRate", 2, -1⟩]).wchunk_mean_steps = none := by
  constructor
  · norm_num [List.pairwise_cons]
  · rw [MPower.computeRecord]
    norm_num [MPower.create_overlay_data, MPower.mergeLeft,
      MPower.bfill, MPower.walkingBouts, MPower.walkingIndices,
      MPower.separate_array_sequence, MPower.qmean, List.filter]

open MPower in
/-- C7 (amended): for every sensor stream with strictly increasing td
that contains at least two userAcceleration samples, and every
length-preserving filter, each of the six feature values of the returned
record is finite and non-negative: the two step-rate features are `some`
non-negative rational, the turn count is a natural number, and the
mean/min/max turn durations are non-negative rationals. -/
theorem C7_features_finite_nonneg (filt : List ℚ → List ℚ)
    (det : List ℚ → Option ℕ) (rows : List Row)
    (hf : ∀ l, (filt l).length = l.length)
    (hmono : List.Pairwise (· < ·) (rows.map Row.td))
    (hacc2 : 2 ≤ (rows.filter
      (fun r => r.sensorType == "userAcceleration")).length) :
    (∃ q, (computeRecord filt det rows).wchunk_mean_steps =
      some q ∧ 0 ≤ q) ∧
    (∃ q, (computeRecord filt det rows).no_wchunk_mean_steps =
      some q ∧ 0 ≤ q) ∧
    0 ≤ (computeRecord filt det rows).mean_duration ∧
    0 ≤ (computeRecord filt det rows).min_duration ∧
    0 ≤ (computeRecord filt det rows).max_duration := by
  have hnodup : (rows.map Row.td).Nodup :=
    hmono.imp (fun h => ne_of_lt h)
  -- no TurnEvent td ever matches an acceleration td
  have hdisj : ∀ r ∈ rows.filter
      (fun r => r.sensorType == "userAcceleration"),
      ∀ e ∈ calculate_rotation filt
        ((rows.filter (fun r => r.sensorType == "rotationRate")).map
          (fun r => (r.td, r.y))), e.td ≠ r.td := by
    intro r hr e he hEq
    have hlen : (((rows.filter
        (fun r => r.sensorType == "rotationRate")).map
        (fun r => (r.td, r.y))).map Prod.fst).length =
        (filt (((rows.filter (fun r => r.sensorType == "rotationRate")).map
          (fun r => (r.td, r.y))).map Prod.snd)).length := by
      rw [hf]
      simp
    have hmem := events_td_mem _ _ hlen _ 0 e he
    rw [List.map_map] at hmem
    obtain ⟨r2, hr2, hr2td⟩ := List.mem_map.mp hmem
    have hreq : r2 = r := by
      apply List.inj_on_of_nodup_map hnodup (List.mem_of_mem_filter hr2)
        (List.mem_of_mem_filter hr)
      show r2.td = r.td
      have : r2.td = e.td := hr2td
      rw [this, hEq]
    have h1 : r.sensorType = "userAcceleration" := by
      simpa using (List.mem_filter.mp hr).2
    have h2 : r2.sensorType = "rotationRate" := by
      simpa using (List.mem_filter.mp hr2).2
    rw [hreq, h1] at h2
    exact absurd h2 (by decide)
  -- the overlay is the acceleration rows with zero aucXt and duration
  have hoverlay := overlay_nomatch _ _ hdisj
  have hcol : ((rows.filter
      (fun r => r.sensorType == "userAcceleration")).map (fun r =>
        ({ td := r.td, y := r.y, aucXt := 0, turn_duration := 0 } :
          MergedRow))).map MergedRow.aucXt =
      List.replicate (rows.filter
        (fun r => r.sensorType == "userAcceleration")).length (0 : ℚ) := by
    rw [List.map_map]
    have hc : (MergedRow.aucXt ∘ fun r : Row =>
        ({ td := r.td, y := r.y, aucXt := 0, turn_duration := 0 } :
          MergedRow)) = fun _ => (0 : ℚ) := funext fun r => rfl
    rw [hc, List.map_const']
  have hwi : walkingIndices (List.replicate (rows.filter
      (fun r => r.sensorType == "userAcceleration")).length (0 : ℚ)) =
      List.range (rows.filter
        (fun r => r.sensorType == "userAcceleration")).length := by
    rw [walkingIndices, List.length_replicate]
    apply List.filter_eq_self.mpr
    intro i hi
    rw [List.mem_range] at hi
    rw [List.getD_eq_getElem _ _ (by simpa using hi),
      List.getElem_replicate]
    exact decide_eq_true (by norm_num)
  have hA1 : (rows.filter
      (fun r => r.sensorType == "userAcceleration")).length =
      ((rows.filter
        (fun r => r.sensorType == "userAcceleration")).length - 1) + 1 := by
    omega
  have hwb : walkingBouts (((rows.filter
      (fun r => r.sensorType == "userAcceleration")).map (fun r =>
        ({ td := r.td, y := r.y, aucXt := 0, turn_duration := 0 } :
          MergedRow))).map MergedRow.aucXt) =
      [List.range' 0 (rows.filter
        (fun r => r.sensorType == "userAcceleration")).length] := by
    rw [hcol, walkingBouts, hwi, List.range_eq_range']
    rw [hA1]
    exact sas_single_run 0 _
  have hghead : (List.range' 0 (rows.filter
      (fun r => r.sensorType == "userAcceleration")).length).headD 0 =
      0 := by
    rw [hA1, List.range'_succ]
    rfl
  have hglast : (List.range' 0 (rows.filter
      (fun r => r.sensorType == "userAcceleration")).length).getLastD 0 =
      (rows.filter
        (fun r => r.sensorType == "userAcceleration")).length - 1 := by
    conv_lhs => rw [hA1]
    rw [getLastD_range']
    omega
  have hovlen : (create_overlay_data (rows.filter
      (fun r => r.sensorType == "userAcceleration"))
      (calculate_rotation filt
        ((rows.filter (fun r => r.sensorType == "rotationRate")).map
          (fun r => (r.td, r.y))))).length =
      (rows.filter
        (fun r => r.sensorType == "userAcceleration")).length := by
    rw [hoverlay]
    simp
  have hslice : sliceIncl (create_overlay_data (rows.filter
      (fun r => r.sensorType == "userAcceleration"))
      (calculate_rotation filt
        ((rows.filter (fun r => r.sensorType == "rotationRate")).map
          (fun r => (r.td, r.y))))) 0
      ((rows.filter
        (fun r => r.sensorType == "userAcceleration")).length - 1) =
      create_overlay_data (rows.filter
        (fun r => r.sensorType == "userAcceleration"))
        (calculate_rotation filt
          ((rows.filter (fun r => r.sensorType == "rotationRate")).map
            (fun r => (r.td, r.y)))) := by
    rw [sliceIncl, List.drop_zero]
    rw [show (rows.filter
      (fun r => r.sensorType == "userAcceleration")).length - 1 + 1 - 0 =
      (rows.filter
        (fun r => r.sensorType == "userAcceleration")).length by omega]
    rw [← hovlen, List.take_length]
  -- turn durations are non-negative
  have hdurs : ∀ e ∈ calculate_rotation filt
      ((rows.filter (fun r => r.sensorType == "rotationRate")).map
        (fun r => (r.td, r.y))), 0 ≤ e.turn_duration := by
    intro e he
    have htds_le : List.Pairwise (· ≤ ·)
        ((((rows.filter (fun r => r.sensorType == "rotationRate")).map
          (fun r => (r.td, r.y))).map Prod.fst)) := by
      rw [List.map_map]
      have hsub : ((rows.filter
          (fun r => r.sensorType == "rotationRate")).map
          (fun r => (Prod.fst ∘ fun r => (r.td, r.y)) r)).Sublist
          (rows.map Row.td) :=
        List.Sublist.map _ (List.filter_sublist rows)
      exact ((hmono.sublist hsub).imp (fun h => le_of_lt h))
    refine events_dur_nonneg _ _ htds_le _ ?_ ?_ 0 ?_ e he
    · exact List.Pairwise.filter _ (List.sorted_lt_range _)
    · intro j hj
      rw [detect_zcr, List.mem_filter, List.mem_range] at hj
      have hj2 := hj.1
      rw [hf] at hj2
      simp only [List.length_map] at hj2 ⊢
      omega
    · intro j hj
      exact Nat.zero_le j
  -- rotation block components
  have hrb := rotationBlock_nonneg _ hdurs
  -- decompose the acceleration rows (at least two of them)
  obtain ⟨a0, tl0, hacc_eq⟩ : ∃ a0 tl0, rows.filter
      (fun r => r.sensorType == "userAcceleration") = a0 :: tl0 := by
    rcases hv : rows.filter (fun r => r.sensorType == "userAcceleration")
      with _ | ⟨a0, tl0⟩
    · rw [hv] at hacc2
      simp at hacc2
    · exact ⟨a0, tl0, hv⟩
  have htl0 : tl0 ≠ [] := by
    intro hnil
    rw [hacc_eq, hnil] at hacc2
    simp at hacc2
  have hgetLastD_mem : ∀ (l : List Row) (d : Row), l ≠ [] →
      l.getLastD d ∈ l := by
    intro l d h
    rw [List.getLastD_eq_getLast?, List.getLast?_eq_getLast _ h]
    exact List.getLast_mem h
  have map_last : ∀ (l : List Row),
      (l.map (fun r => ({ td := r.td, y := r.y, aucXt := 0, turn_duration := 0 } : MergedRow))).getLastD ⟨0, 0, 0, 0⟩ =
      { td := (l.getLastD ⟨"", 0, 0⟩).td,
        y := (l.getLastD ⟨"", 0, 0⟩).y, aucXt := 0,
        turn_duration := 0 } := by
    intro l
    rw [List.getLastD_eq_getLast?, List.getLast?_map,
      List.getLastD_eq_getLast?]
    cases l.getLast? <;> rfl
  have hhead_ov : (create_overlay_data (rows.filter
      (fun r => r.sensorType == "userAcceleration"))
      (calculate_rotation filt
        ((rows.filter (fun r => r.sensorType == "rotationRate")).map
          (fun r => (r.td, r.y))))).headD ⟨0, 0, 0, 0⟩ =
      { td := a0.td, y := a0.y, aucXt := 0, turn_duration := 0 } := by
    rw [hoverlay, hacc_eq]
    rfl
  have hlast_ov : (create_overlay_data (rows.filter
      (fun r => r.sensorType == "userAcceleration"))
      (calculate_rotation filt
        ((rows.filter (fun r => r.sensorType == "rotationRate")).map
          (fun r => (r.td, r.y))))).getLastD ⟨0, 0, 0, 0⟩ =
      { td := (((rows.filter
          (fun r => r.sensorType == "userAcceleration")).getLastD
            ⟨"", 0, 0⟩)).td,
        y := (((rows.filter
          (fun r => r.sensorType == "userAcceleration")).getLastD
            ⟨"", 0, 0⟩)).y, aucXt := 0, turn_duration := 0 } := by
    rw [hoverlay, map_last]
  have hlast_mem : (rows.filter
      (fun r => r.sensorType == "userAcceleration")).getLastD
        ⟨"", 0, 0⟩ ∈ tl0 := by
    rw [hacc_eq, List.getLastD_cons]
    have := hgetLastD_mem tl0 a0 htl0
    exact this
  have hdurpos : 0 < ((rows.filter
      (fun r => r.sensorType == "userAcceleration")).getLastD
        ⟨"", 0, 0⟩).td - a0.td := by
    have hp : List.Pairwise (fun a b : Row => a.td < b.td)
        (rows.filter (fun r => r.sensorType == "userAcceleration")) := by
      apply List.pairwise_map.mp
      exact hmono.sublist (List.Sublist.map _ (List.filter_sublist rows))
    rw [hacc_eq] at hp
    have := List.rel_of_pairwise_cons hp hlast_mem
    linarith
  refine ⟨?_, ?_, hrb.1, hrb.2.1, hrb.2.2⟩
  · -- windowed mean
    show ∃ q, qmean ((walkingBouts ((create_overlay_data _ _).map
      MergedRow.aucXt)).map _) = some q ∧ 0 ≤ q
    rw [hoverlay, hwb]
    rw [List.map_cons, List.map_nil]
    rw [hghead, hglast, ← hoverlay, hslice]
    rw [qmean_singleton]
    exact ⟨_, rfl, calcSteps_nonneg _ _ _⟩
  · -- unwindowed mean
    show ∃ q, omean ((walkingBouts ((create_overlay_data _ _).map
      MergedRow.aucXt)).map _) = some q ∧ 0 ≤ q
    rw [hoverlay, hwb]
    rw [List.map_cons, List.map_nil]
    rw [hghead, hglast, ← hoverlay, hslice]
    dsimp only
    rw [hhead_ov, hlast_ov]
    rcases hdet : det ((create_overlay_data (rows.filter
        (fun r => r.sensorType == "userAcceleration"))
        (calculate_rotation filt
          ((rows.filter (fun r => r.sensorType == "rotationRate")).map
            (fun r => (r.td, r.y))))).map MergedRow.y) with _ | c
    · rw [hdet]
      dsimp only
      rw [omean_singleton]
      exact ⟨0, rfl, le_refl 0⟩
    · rw [hdet]
      dsimp only
      rw [if_neg (by linarith)]
      rw [omean_singleton]
      refine ⟨_, rfl, ?_⟩
      apply div_nonneg (by positivity)
      linarith

open MPower in
/-- C7 witness: the amended statement at a concrete two-sample
acceleration stream with the identity filter and an always-failing
detector. -/
theorem C7_features_finite_nonneg_witness :
    (∃ q, (computeRecord id (fun _ => none)
      [⟨"userAcceleration", 0, 0⟩,
       ⟨"userAcceleration", 1, 0⟩]).wchunk_mean_steps = some q ∧ 0 ≤ q) ∧
    (∃ q, (computeRecord id (fun _ => none)
      [⟨"userAcceleration", 0, 0⟩,
       ⟨"userAcceleration", 1, 0⟩]).no_wchunk_mean_steps =
         some q ∧ 0 ≤ q) ∧
    0 ≤ (computeRecord id (fun _ => none)
      [⟨"userAcceleration", 0, 0⟩,
       ⟨"userAcceleration", 1, 0⟩]).mean_duration ∧
    0 ≤ (computeRecord id (fun _ => none)
      [⟨"userAcceleration", 0, 0⟩,
       ⟨"userAcceleration", 1, 0⟩]).min_duration ∧
    0 ≤ (computeRecord id (fun _ => none)
      [⟨"userAcceleration", 0, 0⟩,
       ⟨"userAcceleration", 1, 0⟩]).max_duration :=
  C7_features_finite_nonneg id (fun _ => none)
    [⟨"userAcceleration", 0, 0⟩, ⟨"userAcceleration", 1, 0⟩]
    (fun _ => rfl)
    (by norm_num [List.pairwise_cons])
    (by norm_num [List.filter])
